import Mathlib

/-!
# Verification of the `version` package (`src/version.go`)

A shallow embedding of the parsing and comparison pipeline of the Go package
`version`, followed by theorems about it.

Modelling conventions.

* Go `string` is modelled by Lean `String` and a Go `rune` by `Char`.  A Lean
  string is a sequence of code points, so input bytes that are not well-formed
  UTF-8 are outside the model; Go reads each such byte as U+FFFD, which the
  tokenizer discards like any other separator.
* Go compares strings bytewise; on well-formed UTF-8 that order coincides with
  the code-point-wise lexicographic order, which is `<` on `String`.
* Go `int` is modelled by `Int`.  The only place where the machine width
  matters is `strconv.Atoi`, which reports a range error for values that do not
  fit in `intSize` bits; see `Atoi`.
* A Go `for` loop over an index becomes a function that carries the index and
  is structurally recursive on a bound for the number of iterations left.  The
  theorems `releaseLoop_eq_relScan`, `preLoop_eq_preScan` and
  `parseLoop_eq_parseTokens` show that the bounds used are sufficient.
* The library functions `strings.ToLower`, `strconv.Atoi`, `strings.Repeat` and
  `regexp.MatchString` (for the one pattern of the package) are modelled in the
  section on library functions.

The file has two parts: all definitions, then all theorems.
-/

set_option linter.dupNamespace false
set_option linter.unusedVariables false

namespace version

/-! ## Tables (`src/version.go`, lines 17-48) -/

/-- The entries of the Go map `keyword`, in source order. -/
def keywordTable : List (String × String) :=
  [("dev", "dev"), ("develop", "dev"), ("snapshot", "snapshot"),
   ("a", "alpha"), ("alpha", "alpha"), ("b", "beta"), ("beta", "beta"),
   ("stable", "stable"), ("final", "final"), ("fixed", "fixed"),
   ("m", "milestone"), ("c", "rc"), ("rc", "rc"), ("ga", "ga"),
   ("r", "release"), ("release", "release")]

/-- The two-valued map read `value, ok := keyword[part]`. -/
def keyword (part : String) : Option String :=
  keywordTable.lookup part

/-- The entries of the Go map `weights`, in source order. -/
def weightsTable : List (String × String) :=
  [("dev", "00"), ("snapshot", "01"), ("alpha", "02"), ("beta", "03"),
   ("stable", "04"), ("final", "05"), ("fixed", "06"), ("milestone", "07"),
   ("rc", "08"), ("ga", "09"), ("release", "10")]

/-- The one-valued map read `weights[k]`: the zero value `""` for a missing key. -/
def weights (k : String) : String :=
  (weightsTable.lookup k).getD ""

/-! ## Data model (lines 50-60) -/

/-- Go `type Pre struct { Letter string; Number int }`. -/
structure Pre where
  Letter : String
  Number : Int
deriving DecidableEq, Repr

/-- Go `type Version struct { Version string; release []int; date string; prelist []Pre }`. -/
structure Version where
  Version : String
  release : List Int
  date : String
  prelist : List Pre
deriving DecidableEq, Repr

/-! ## `comparePre` (lines 288-312) -/

/-- Go `comparePre`.  Note that `weight2` starts from `pre1.Letter`, as in the source. -/
def comparePre (pre1 pre2 : Pre) : Int :=
  let weight1 := if weights pre1.Letter ≠ "" then weights pre1.Letter else pre1.Letter
  let weight2 := if weights pre2.Letter ≠ "" then weights pre2.Letter else pre1.Letter
  if weight1 > weight2 then 1
  else if weight1 < weight2 then -1
  else if pre1.Number > pre2.Number then 1
  else if pre1.Number < pre2.Number then -1
  else 0

/-! ## `Version.Compare` (lines 154-212) -/

/-- The loop `for i := 0; i < l; i++` over the release lists (lines 161-167).
`some r` is an early `return r`; `none` means the loop ran to its end.  The
first argument bounds the iterations left; `Compare` starts it at `l`. -/
def releaseLoop (r1 r2 : List Int) (l : Nat) : Nat → Nat → Option Int
  | 0, _ => none
  | fuel + 1, i =>
    if i < l then
      if r1.getD i 0 > r2.getD i 0 then some 1
      else if r1.getD i 0 < r2.getD i 0 then some (-1)
      else releaseLoop r1 r2 l fuel (i + 1)
    else none

/-- The loop `for i := 0; i < l; i++` over the qualifier lists (lines 190-209),
with the synthetic `Pre{"release", 0}` for a missing entry. -/
def preLoop (p1 p2 : List Pre) (l : Nat) : Nat → Nat → Option Int
  | 0, _ => none
  | fuel + 1, i =>
    if i < l then
      let pre1 := if i < p1.length then p1.getD i ⟨"release", 0⟩ else ⟨"release", 0⟩
      let pre2 := if i < p2.length then p2.getD i ⟨"release", 0⟩ else ⟨"release", 0⟩
      let r := comparePre pre1 pre2
      if r ≠ 0 then some r
      else preLoop p1 p2 l fuel (i + 1)
    else none

/-- The date tier (lines 176-182): `some r` is an early `return r`. -/
def compareDate (d1 d2 : String) : Option Int :=
  if d1 ≠ "" ∧ d2 ≠ "" then
    if d1 > d2 then some 1
    else if d1 < d2 then some (-1)
    else none
  else none

/-- Go `(v *Version) Compare(version *Version) int`. -/
def Compare (v version : Version) : Int :=
  -- release
  let l := if version.release.length < v.release.length then version.release.length
           else v.release.length
  match releaseLoop v.release version.release l l 0 with
  | some r => r
  | none =>
    if v.release.length > version.release.length then 1
    else if v.release.length < version.release.length then -1
    else
      -- date
      match compareDate v.date version.date with
      | some r => r
      | none =>
        -- pre
        let l := if version.prelist.length > v.prelist.length then version.prelist.length
                 else v.prelist.length
        match preLoop v.prelist version.prelist l l 0 with
        | some r => r
        | none => 0

/-! ## Relational helpers (lines 112-152) -/

/-- Go `(v *Version) Lt`. -/
def Lt (v version : Version) : Bool :=
  if v.Version = "" ∨ version.Version = "" then false
  else Compare v version = -1

/-- Go `(v *Version) Lte`. -/
def Lte (v version : Version) : Bool :=
  if v.Version = "" ∨ version.Version = "" then false
  else
    let r := Compare v version
    r = 0 ∨ r = -1

/-- Go `(v *Version) Gt`. -/
def Gt (v version : Version) : Bool :=
  if v.Version = "" ∨ version.Version = "" then false
  else Compare v version = 1

/-- Go `(v *Version) Gte`. -/
def Gte (v version : Version) : Bool :=
  if v.Version = "" ∨ version.Version = "" then false
  else
    let r := Compare v version
    r = 0 ∨ r = 1

/-- Go `(v *Version) Eq`. -/
def Eq (v version : Version) : Bool :=
  if v.Version = "" ∨ version.Version = "" then false
  else Compare v version = 0

/-! ## `splitVersionParts` (lines 314-356) -/

/-- The local variables of `splitVersionParts`: `list`, `buf` and `lastRune`
(`0`, `'N'` = 78 or `'S'` = 83). -/
structure SplitState where
  list : List String
  buf : List Char
  lastRune : Nat
deriving DecidableEq, Repr

/-- The closure `flushBuf` (lines 319-324). -/
def flushBuf (st : SplitState) : SplitState :=
  if st.buf.length > 0 then { st with list := st.list ++ [String.mk st.buf], buf := [] }
  else st

/-- One iteration of `for _, r := range version` (lines 326-348). -/
def splitStep (st : SplitState) (r : Char) : SplitState :=
  if '0' ≤ r ∧ r ≤ '9' then
    let st := if st.lastRune ≠ 'N'.toNat then flushBuf st else st
    { st with buf := st.buf ++ [r], lastRune := 'N'.toNat }
  else if 'a' ≤ r ∧ r ≤ 'z' then
    let st := if st.lastRune ≠ 'S'.toNat then flushBuf st else st
    { st with buf := st.buf ++ [r], lastRune := 'S'.toNat }
  else
    { flushBuf st with lastRune := 0 }

/-- Go `splitVersionParts`: the loop over the runes, then the final flush
(lines 350-353). -/
def splitVersionParts (version : String) : List String :=
  (flushBuf (version.data.foldl splitStep ⟨[], [], 0⟩)).list

/-! ## Library functions used by `parseVersion` -/

/-- The runes on which `unicode.ToLower` yields an ASCII letter are `A`-`Z`,
U+0130 (to `i`) and U+212A (to `k`).  Every other rune outside ASCII is mapped
by Go to a rune outside ASCII, which `splitVersionParts` treats exactly like the
original (its `default` case), so such runes are left unchanged here. -/
def toLowerRune (r : Char) : Char :=
  if 'A' ≤ r ∧ r ≤ 'Z' then Char.ofNat (r.toNat + 32)
  else if r = Char.ofNat 0x130 then 'i'
  else if r = Char.ofNat 0x212A then 'k'
  else r

/-- Go `strings.ToLower`, rune by rune. -/
def ToLower (s : String) : String :=
  String.mk (s.data.map toLowerRune)

/-- The width of Go `int` on the 64-bit platforms the package is built for. -/
def intSize : Nat := 64

/-- The value of a run of decimal digits. -/
def digitsValue (ds : List Char) : Nat :=
  ds.foldl (fun acc c => acc * 10 + (c.toNat - '0'.toNat)) 0

/-- Whether a rune is an ASCII decimal digit. -/
def isDigitRune (c : Char) : Bool :=
  decide ('0' ≤ c ∧ c ≤ '9')

/-- Go `strconv.Atoi`: the pair `(n, err == nil)`.  An optional sign followed by
one or more decimal digits is accepted; anything else is a syntax error with
value `0`; a value outside the `int` range is a range error whose returned value
is the nearest bound. -/
def Atoi (s : String) : Int × Bool :=
  let neg := s.data.head? = some '-'
  let ds := if s.data.head? = some '-' ∨ s.data.head? = some '+' then s.data.tail else s.data
  if ds = [] ∨ ¬ ds.all isDigitRune then (0, false)
  else if neg then
    if digitsValue ds > 2 ^ (intSize - 1) then (-(2 ^ (intSize - 1) : Int), false)
    else (-(digitsValue ds : Int), true)
  else
    if digitsValue ds > 2 ^ (intSize - 1) - 1 then ((2 ^ (intSize - 1) - 1 : Int), false)
    else ((digitsValue ds : Int), true)

/-- `datePattern.MatchString` for the regular expression of line 15,
`\A20[12]\d(0[1-9]|1[012])(0[1-9]|[12]\d|3[01])(\d{2}){0,3}\z`. -/
def datePattern (s : String) : Bool :=
  match s.data with
  | c1 :: c2 :: y3 :: y4 :: m1 :: m2 :: d1 :: d2 :: rest =>
    c1 = '2' && c2 = '0' && (y3 = '1' || y3 = '2') && isDigitRune y4
    && ((m1 = '0' && decide ('1' ≤ m2 ∧ m2 ≤ '9'))
        || (m1 = '1' && (m2 = '0' || m2 = '1' || m2 = '2')))
    && ((d1 = '0' && decide ('1' ≤ d2 ∧ d2 ≤ '9'))
        || ((d1 = '1' || d1 = '2') && isDigitRune d2)
        || (d1 = '3' && (d2 = '0' || d2 = '1')))
    && rest.all isDigitRune
    && (rest.length = 0 || rest.length = 2 || rest.length = 4 || rest.length = 6)
  | _ => false

/-- Go `strings.Repeat("0", count)`.  Go panics on a negative count; at the only
call site the count is `14 - len(part)` for a date-shaped `part`, which is never
negative (`datePattern_length`). -/
def repeatZero (count : Int) : String :=
  String.mk (List.replicate count.toNat '0')

/-! ## `parseVersion` and `Parse` (lines 214-286) -/

/-- The loop `for i := 0; i < len(list); i++` of `parseVersion` (lines 219-264).
The first argument bounds the iterations left; `parseVersion` starts it at
`len(list)`, which suffices because `i` grows in every iteration.  `look` is the
pair of the qualifier number `n` and the index `i` after the lookahead of lines
251-261.  Go's `len(part)` counts bytes; it is taken of date-shaped tokens only,
which are ASCII, so it is the number of runes. -/
def parseLoop (list : List String) : Nat → Nat → Bool → Version → Version
  | 0, _, _, v => v
  | fuel + 1, i, releaseFlag, v =>
    if i < list.length then
      let part := list.getD i ""
      if part = "_" ∨ part = "-" then
        parseLoop list fuel (i + 1) false v
      else if datePattern part then
        parseLoop list fuel (i + 1) false
          { v with date := part ++ repeatZero (14 - (part.length : Int)) }
      else if releaseFlag ∧ (Atoi part).2 then
        parseLoop list fuel (i + 1) true { v with release := v.release ++ [(Atoi part).1] }
      else
        let part := match keyword part with
          | some value => value
          | none => part
        let look : Int × Nat :=
          if ¬ (Atoi part).2 then
            if i + 1 < list.length then
              if ¬ datePattern (list.getD (i + 1) "") then
                if (Atoi (list.getD (i + 1) "")).2 then ((Atoi (list.getD (i + 1) "")).1, i + 1)
                else ((Atoi (list.getD (i + 1) "")).1, i)
              else (0, i)
            else (0, i)
          else (0, i)
        parseLoop list fuel (look.2 + 1) false
          { v with prelist := v.prelist ++ [⟨part, look.1⟩] }
    else v

/-- The loop `for i := index - 1; i >= 0; i--` that finds the start of the
trailing zeros (lines 269-275).  The first argument is `i + 1`. -/
def trimLoop (release : List Int) : Nat → Nat → Nat
  | 0, index => index
  | i + 1, index =>
    if release.getD i 0 = 0 then trimLoop release i i
    else index

/-- The trailing-zero removal at the end of `parseVersion` (lines 267-279). -/
def trimRelease (release : List Int) : List Int :=
  if release.length > 0 then
    let index := trimLoop release release.length release.length
    if index < release.length then release.take index else release
  else release

/-- Go `parseVersion(version, v)`; the updated `*v` is returned. -/
def parseVersion (version : String) (v : Version) : Version :=
  let v := { v with Version := version }
  let list := splitVersionParts (ToLower version)
  let v := parseLoop list list.length 0 true v
  { v with release := trimRelease v.release }

/-- Go `Parse`. -/
def Parse (version : String) : Version :=
  parseVersion version ⟨"", [], "", []⟩

/-! ## Structural views of the loops

The index loops above are compared with functions that recurse on the remaining
suffixes `list[i:]`; the bridging theorems below show that the bound on the
iterations is always sufficient. -/

/-- The release loop of `Compare` seen on the two remaining suffixes. -/
def relScan : List Int → List Int → Option Int
  | a :: as, b :: bs =>
    if a > b then some 1
    else if a < b then some (-1)
    else relScan as bs
  | _, _ => none

/-- The qualifier loop of `Compare` seen on the two remaining suffixes. -/
def preScan : List Pre → List Pre → Option Int
  | [], [] => none
  | a :: as, [] =>
    if comparePre a ⟨"release", 0⟩ ≠ 0 then some (comparePre a ⟨"release", 0⟩)
    else preScan as []
  | [], b :: bs =>
    if comparePre ⟨"release", 0⟩ b ≠ 0 then some (comparePre ⟨"release", 0⟩ b)
    else preScan [] bs
  | a :: as, b :: bs =>
    if comparePre a b ≠ 0 then some (comparePre a b)
    else preScan as bs

/-- The qualifier number lookahead of `parseVersion` (lines 251-261) seen on the
remaining suffix `rest = list[i+1:]`: the number, and whether the next token is
consumed. -/
def lookahead (part : String) (rest : List String) : Int × Bool :=
  if ¬ (Atoi part).2 then
    match rest with
    | [] => (0, false)
    | next :: _ =>
      if ¬ datePattern next then ((Atoi next).1, (Atoi next).2)
      else (0, false)
  else (0, false)

/-- The qualifier name after the alias lookup (lines 247-249). -/
def aliasOf (part : String) : String :=
  match keyword part with
  | some value => value
  | none => part

/-- The loop of `parseVersion` seen on the remaining suffix `list[i:]`. -/
def parseTokens : List String → Bool → Version → Version
  | [], _, v => v
  | part :: rest, releaseFlag, v =>
    if part = "_" ∨ part = "-" then
      parseTokens rest false v
    else if datePattern part then
      parseTokens rest false { v with date := part ++ repeatZero (14 - (part.length : Int)) }
    else if releaseFlag ∧ (Atoi part).2 then
      parseTokens rest true { v with release := v.release ++ [(Atoi part).1] }
    else
      parseTokens (if (lookahead (aliasOf part) rest).2 then rest.tail else rest) false
        { v with prelist := v.prelist ++ [⟨aliasOf part, (lookahead (aliasOf part) rest).1⟩] }
termination_by l => l.length
decreasing_by
  all_goals simp_wf
  all_goals first
    | omega
    | (split
       · simp only [List.length_tail]; omega
       · omega)

/-! ## Auxiliary notions for the proofs -/

/-- The state `st` with the tokens `pre` put in front of its `list`. -/
def prependTokens (pre : List String) (st : SplitState) : SplitState :=
  { st with list := pre ++ st.list }

/-- The record `v` with `rel` appended to its release list and `pre` to its
qualifier list. -/
def addParsed (v : Version) (rel : List Int) (pre : List Pre) : Version :=
  { v with release := v.release ++ rel, prelist := v.prelist ++ pre }

/-- A token list whose first token, if any, is date-shaped or is no number at
all (`Atoi` fails on it with value `0`). -/
def plainHead (tail : List String) : Prop :=
  ∀ h, tail.head? = some h → (datePattern h = true ∨ Atoi h = (0, false))

/-! ## Notions used to state the specification -/

/-- Whether a rune is an ASCII lowercase letter. -/
def isLowerRune (c : Char) : Bool :=
  decide ('a' ≤ c ∧ c ≤ 'z')

/-- A digit run: a non-empty string of ASCII decimal digits. -/
def isDigitRun (r : String) : Bool :=
  !r.data.isEmpty && r.data.all isDigitRune

/-- A letter run: a non-empty string of ASCII lowercase letters. -/
def isLetterRun (r : String) : Bool :=
  !r.data.isEmpty && r.data.all isLowerRune

/-- The number written by a digit run fits a machine `int`. -/
def fitsInt (r : String) : Bool :=
  decide (digitsValue r.data ≤ 2 ^ (intSize - 1) - 1)

/-- The strings of `runs` joined with the separator `sep` between neighbours. -/
def joinWith (sep : String) : List String → String
  | [] => ""
  | [r] => r
  | r :: r' :: rs => r ++ sep ++ joinWith sep (r' :: rs)

/-- Specification: the release list after the removal of its trailing zeros. -/
def dropTrailingZeros (release : List Int) : List Int :=
  release.rdropWhile (fun x => x == 0)

/-- Specification: lexicographic comparison of two integer lists.  The first
differing element decides numerically; a proper prefix is smaller. -/
def lexCompare : List Int → List Int → Int
  | [], [] => 0
  | [], _ :: _ => -1
  | _ :: _, [] => 1
  | a :: as, b :: bs =>
    if a < b then -1
    else if b < a then 1
    else lexCompare as bs

/-- A three-way comparison `f` is transitive on the elements satisfying `S`, and
a chain `x ≤ y ≤ z` whose ends tie is a chain of ties. -/
def TriTrans {α : Type} (S : α → Prop) (f : α → α → Int) : Prop :=
  ∀ x y z, S x → S y → S z → f x y ≤ 0 → f y z ≤ 0 →
    f x z ≤ 0 ∧ (f x z = 0 → f x y = 0 ∧ f y z = 0)

/-- Every qualifier name of the list is a key of the weight table. -/
def allListed (ps : List Pre) : Prop :=
  ∀ p ∈ ps, weights p.Letter ≠ ""

instance (ps : List Pre) : Decidable (allListed ps) := by
  unfold allListed
  infer_instance

/-- Specification: the canonical qualifier names from the lowest rank to the
highest, `dev < snapshot < alpha < beta < stable < final < fixed < milestone < rc
< ga < release`. -/
def rankOrder : List String :=
  ["dev", "snapshot", "alpha", "beta", "stable", "final", "fixed", "milestone", "rc", "ga",
   "release"]

/-- Specification: the rank of a canonical qualifier name, its position in
`rankOrder`. -/
def rank (q : String) : Nat :=
  rankOrder.indexOf q

/-- Specification: lexicographic comparison of `(r1, n1)` with `(r2, n2)`. -/
def compareRankNumber (r1 : Nat) (n1 : Int) (r2 : Nat) (n2 : Int) : Int :=
  if r1 < r2 then -1
  else if r2 < r1 then 1
  else if n1 < n2 then -1
  else if n2 < n1 then 1
  else 0

/-- A qualifier number as the claims write it: omitted, or a digit run that is
not date-shaped and fits a machine `int`. -/
def isNumberSuffix (n : String) : Prop :=
  n = "" ∨ (isDigitRun n = true ∧ datePattern n = false ∧ fitsInt n = true)

instance (n : String) : Decidable (isNumberSuffix n) := by
  unfold isNumberSuffix
  infer_instance

/-- Specification: `d` right-padded with "0" to `width` characters. -/
def padZeros (d : String) (width : Nat) : String :=
  d ++ String.mk (List.replicate (width - d.length) '0')

/-- Every rune of the emitted tokens and of the buffer is a digit or a lowercase
letter. -/
def alnumState (st : SplitState) : Prop :=
  (∀ t ∈ st.list, ∀ c ∈ t.data, isDigitRune c = true ∨ isLowerRune c = true) ∧
  (∀ c ∈ st.buf, isDigitRune c = true ∨ isLowerRune c = true)

/-- Specification: the sign of the comparison of two strings. -/
def compareStrings (a b : String) : Int :=
  if a > b then 1
  else if a < b then -1
  else 0

/-- Specification: the rank string of a qualifier, `weights[p.Letter]` if
`p.Letter` is a key of the weight table and `p.Letter` itself otherwise. -/
def rankString (p : Pre) : String :=
  if p.Letter ∈ weightsTable.map Prod.fst then weights p.Letter else p.Letter

/-- Specification: the reference comparison of two qualifiers, the lexicographic
comparison of `(rankString p1, p1.Number)` with `(rankString p2, p2.Number)`,
rank strings compared as strings and numbers numerically. -/
def comparePreSpec (p1 p2 : Pre) : Int :=
  if rankString p1 > rankString p2 then 1
  else if rankString p1 < rankString p2 then -1
  else if p1.Number > p2.Number then 1
  else if p1.Number < p2.Number then -1
  else 0

/-- Specification: the input with every character outside 0-9 and a-z removed. -/
def alnumOnly (s : String) : String :=
  String.mk (s.data.filter (fun c => isDigitRune c || isLowerRune c))

/-- The invariant of the loop of `splitVersionParts` after the runes `cs`: the
emitted tokens are digit runs or letter runs, the buffer is a non-empty run of
the kind recorded in `lastRune` (or empty with `lastRune = 0`), and the tokens
followed by the buffer spell the digits and lowercase letters of `cs`. -/
def splitInv (st : SplitState) (cs : List Char) : Prop :=
  (∀ t ∈ st.list, isDigitRun t = true ∨ isLetterRun t = true) ∧
  ((st.lastRune = 'N'.toNat ∧ st.buf ≠ [] ∧ ∀ c ∈ st.buf, isDigitRune c = true) ∨
   (st.lastRune = 'S'.toNat ∧ st.buf ≠ [] ∧ ∀ c ∈ st.buf, isLowerRune c = true) ∨
   (st.lastRune = 0 ∧ st.buf = [])) ∧
  (st.list.map String.data).flatten ++ st.buf
    = cs.filter (fun c => isDigitRune c || isLowerRune c)

/-- The input with each "_" and each "-" replaced by ".". -/
def markersToDots (s : String) : String :=
  String.mk (s.data.map (fun c => if c = '_' ∨ c = '-' then '.' else c))

/-- The date that the loop of `parseVersion` leaves in the record: the last
date-shaped token, padded, or the date `d0` the record had when there is none. -/
def lastDateOr (d0 : String) : List String → String
  | [] => d0
  | t :: ts =>
    if datePattern t then lastDateOr (t ++ repeatZero (14 - (t.length : Int))) ts
    else lastDateOr d0 ts

/-! # Theorems -/

/-! ## The loops of `Compare` -/

theorem getD_eq_head_drop {α : Type} (l : List α) (i : Nat) (d : α) (h : i < l.length) :
    ∃ t, l.drop i = l.getD i d :: t ∧ l.drop (i + 1) = t := by
  induction l generalizing i with
  | nil => simp at h
  | cons x xs ih =>
    cases i with
    | zero => exact ⟨xs, by simp, by simp⟩
    | succ j =>
      have hj : j < xs.length := by simpa using h
      obtain ⟨t, h1, h2⟩ := ih j hj
      exact ⟨t, by simpa using h1, by simpa using h2⟩

theorem releaseLoop_eq_relScan (r1 r2 : List Int) (l : Nat)
    (hl : l = if r2.length < r1.length then r2.length else r1.length) :
    ∀ (fuel i : Nat), l - i ≤ fuel →
      releaseLoop r1 r2 l fuel i = relScan (r1.drop i) (r2.drop i) := by
  have hl1 : l ≤ r1.length := by subst hl; split_ifs <;> omega
  have hl2 : l ≤ r2.length := by subst hl; split_ifs <;> omega
  have hl3 : l = r1.length ∨ l = r2.length := by subst hl; split_ifs <;> simp
  intro fuel
  induction fuel with
  | zero =>
    intro i hi
    have : l ≤ i := by omega
    rcases hl3 with h | h
    · rw [List.drop_eq_nil_of_le (by omega : r1.length ≤ i)]
      simp [releaseLoop, relScan]
    · rw [List.drop_eq_nil_of_le (by omega : r2.length ≤ i)]
      cases r1.drop i <;> simp [releaseLoop, relScan]
  | succ n ih =>
    intro i hi
    by_cases hil : i < l
    · obtain ⟨t1, h1, h1t⟩ := getD_eq_head_drop r1 i 0 (by omega)
      obtain ⟨t2, h2, h2t⟩ := getD_eq_head_drop r2 i 0 (by omega)
      rw [h1, h2]
      simp only [releaseLoop, relScan, hil, if_true]
      rw [ih (i + 1) (by omega), h1t, h2t]
    · have : l ≤ i := by omega
      simp only [releaseLoop, hil, if_false]
      rcases hl3 with h | h
      · rw [List.drop_eq_nil_of_le (by omega : r1.length ≤ i)]
        simp [relScan]
      · rw [List.drop_eq_nil_of_le (by omega : r2.length ≤ i)]
        cases r1.drop i <;> simp [relScan]

theorem preLoop_eq_preScan (p1 p2 : List Pre) (l : Nat)
    (hl : l = if p2.length > p1.length then p2.length else p1.length) :
    ∀ (fuel i : Nat), l - i ≤ fuel →
      preLoop p1 p2 l fuel i = preScan (p1.drop i) (p2.drop i) := by
  have hl1 : p1.length ≤ l := by subst hl; split_ifs <;> omega
  have hl2 : p2.length ≤ l := by subst hl; split_ifs <;> omega
  intro fuel
  induction fuel with
  | zero =>
    intro i hi
    have : l ≤ i := by omega
    rw [List.drop_eq_nil_of_le (by omega : p1.length ≤ i),
      List.drop_eq_nil_of_le (by omega : p2.length ≤ i)]
    simp [preLoop, preScan]
  | succ n ih =>
    intro i hi
    by_cases hil : i < l
    · simp only [preLoop, hil, if_true]
      rw [ih (i + 1) (by omega)]
      by_cases h1 : i < p1.length <;> by_cases h2 : i < p2.length
      · obtain ⟨t1, e1, e1t⟩ := getD_eq_head_drop p1 i ⟨"release", 0⟩ h1
        obtain ⟨t2, e2, e2t⟩ := getD_eq_head_drop p2 i ⟨"release", 0⟩ h2
        rw [e1, e2, e1t, e2t]
        simp only [h1, h2, if_true, preScan]
      · obtain ⟨t1, e1, e1t⟩ := getD_eq_head_drop p1 i ⟨"release", 0⟩ h1
        rw [e1, e1t, List.drop_eq_nil_of_le (by omega : p2.length ≤ i),
          List.drop_eq_nil_of_le (by omega : p2.length ≤ i + 1)]
        simp only [h1, h2, if_true, if_false, preScan]
      · obtain ⟨t2, e2, e2t⟩ := getD_eq_head_drop p2 i ⟨"release", 0⟩ h2
        rw [e2, e2t, List.drop_eq_nil_of_le (by omega : p1.length ≤ i),
          List.drop_eq_nil_of_le (by omega : p1.length ≤ i + 1)]
        simp only [h1, h2, if_true, if_false, preScan]
      · subst hl; split_ifs at hil <;> omega
    · have : l ≤ i := by omega
      simp only [preLoop, hil, if_false]
      rw [List.drop_eq_nil_of_le (by omega : p1.length ≤ i),
        List.drop_eq_nil_of_le (by omega : p2.length ≤ i)]
      simp [preScan]

/-- `Compare` in terms of the structural views of its two loops. -/
theorem Compare_eq (v version : Version) :
    Compare v version =
      match relScan v.release version.release with
      | some r => r
      | none =>
        if v.release.length > version.release.length then 1
        else if v.release.length < version.release.length then -1
        else
          match compareDate v.date version.date with
          | some r => r
          | none =>
            match preScan v.prelist version.prelist with
            | some r => r
            | none => 0 := by
  unfold Compare
  simp only []
  rw [releaseLoop_eq_relScan _ _ _ rfl _ 0 (by omega),
    preLoop_eq_preScan _ _ _ rfl _ 0 (by omega)]
  simp

/-! ## The release tier -/

theorem relScan_some_lex :
    ∀ (a b : List Int) (r : Int), relScan a b = some r → lexCompare a b = r ∧ r ≠ 0
  | [], [], r, h => by simp [relScan] at h
  | [], _ :: _, r, h => by simp [relScan] at h
  | _ :: _, [], r, h => by simp [relScan] at h
  | x :: xs, y :: ys, r, h => by
    simp only [relScan] at h
    simp only [lexCompare]
    by_cases h1 : x > y
    · simp only [h1, if_true, Option.some.injEq] at h
      subst h
      have : ¬ x < y := by omega
      simp [this, h1]
    · by_cases h2 : x < y
      · simp only [h1, h2, if_true, if_false, Option.some.injEq] at h
        subst h
        simp [h2]
      · simp only [h1, h2, if_false] at h
        have h3 : ¬ y < x := h1
        simp only [h2, h3, if_false]
        exact relScan_some_lex xs ys r h

theorem relScan_none_lex :
    ∀ (a b : List Int), relScan a b = none →
      lexCompare a b =
        (if a.length > b.length then 1 else if a.length < b.length then -1 else 0)
  | [], [], _ => by simp [lexCompare]
  | [], _ :: _, _ => by simp [lexCompare]
  | _ :: _, [], _ => by simp [lexCompare]
  | x :: xs, y :: ys, h => by
    simp only [relScan] at h
    simp only [lexCompare]
    by_cases h1 : x > y
    · simp [h1] at h
    · by_cases h2 : x < y
      · simp [h1, h2] at h
      · simp only [h1, h2, if_false] at h
        have h3 : ¬ y < x := h1
        simp only [h2, h3, if_false]
        rw [relScan_none_lex xs ys h]
        simp only [List.length_cons, gt_iff_lt, Nat.add_lt_add_iff_right]

theorem lexCompare_eq_zero : ∀ (a b : List Int), lexCompare a b = 0 ↔ a = b
  | [], [] => by simp [lexCompare]
  | [], _ :: _ => by simp [lexCompare]
  | _ :: _, [] => by simp [lexCompare]
  | x :: xs, y :: ys => by
    simp only [lexCompare]
    by_cases h1 : x < y
    · have : x ≠ y := by omega
      simp [h1, this]
    · by_cases h2 : y < x
      · have : x ≠ y := by omega
        simp [h1, h2, this]
      · have : x = y := by omega
        subst this
        simp only [h1, if_false, List.cons.injEq, true_and]
        exact lexCompare_eq_zero xs ys

theorem lexCompare_range : ∀ (a b : List Int),
    lexCompare a b = -1 ∨ lexCompare a b = 0 ∨ lexCompare a b = 1
  | [], [] => by simp [lexCompare]
  | [], _ :: _ => by simp [lexCompare]
  | _ :: _, [] => by simp [lexCompare]
  | x :: xs, y :: ys => by
    simp only [lexCompare]
    split_ifs
    · simp
    · simp
    · exact lexCompare_range xs ys

/-- The tiers below the release tier: date, then qualifiers. -/
theorem Compare_eq_lex (v version : Version) :
    Compare v version =
      if lexCompare v.release version.release ≠ 0 then lexCompare v.release version.release
      else
        match compareDate v.date version.date with
        | some r => r
        | none =>
          match preScan v.prelist version.prelist with
          | some r => r
          | none => 0 := by
  rw [Compare_eq]
  cases h : relScan v.release version.release with
  | some r =>
    obtain ⟨h1, h2⟩ := relScan_some_lex _ _ _ h
    simp [h1, h2]
  | none =>
    have h1 := relScan_none_lex _ _ h
    by_cases hgt : v.release.length > version.release.length
    · simp only [hgt, if_true] at h1 ⊢
      simp [h1]
    · by_cases hlt : v.release.length < version.release.length
      · simp only [hgt, hlt, if_true, if_false] at h1 ⊢
        simp [h1]
      · simp only [hgt, hlt, if_false] at h1 ⊢
        simp [h1]

theorem comparePre_range (p q : Pre) :
    comparePre p q = -1 ∨ comparePre p q = 0 ∨ comparePre p q = 1 := by
  unfold comparePre
  simp only []
  split_ifs <;> simp

theorem preScan_range : ∀ (a b : List Pre) (r : Int), preScan a b = some r →
    r = -1 ∨ r = 1
  | [], [], r, h => by simp [preScan] at h
  | x :: xs, [], r, h => by
    simp only [preScan] at h
    split_ifs at h with h0
    · simp only [Option.some.injEq] at h
      subst h
      rcases comparePre_range x ⟨"release", 0⟩ with h | h | h
      · exact Or.inl h
      · exact absurd h h0
      · exact Or.inr h
    · exact preScan_range xs [] r h
  | [], y :: ys, r, h => by
    simp only [preScan] at h
    split_ifs at h with h0
    · simp only [Option.some.injEq] at h
      subst h
      rcases comparePre_range ⟨"release", 0⟩ y with h | h | h
      · exact Or.inl h
      · exact absurd h h0
      · exact Or.inr h
    · exact preScan_range [] ys r h
  | x :: xs, y :: ys, r, h => by
    simp only [preScan] at h
    split_ifs at h with h0
    · simp only [Option.some.injEq] at h
      subst h
      rcases comparePre_range x y with h | h | h
      · exact Or.inl h
      · exact absurd h h0
      · exact Or.inr h
    · exact preScan_range xs ys r h

theorem compareDate_range (d1 d2 : String) (r : Int) (h : compareDate d1 d2 = some r) :
    r = -1 ∨ r = 1 := by
  unfold compareDate at h
  split_ifs at h <;> simp_all

theorem Compare_range (v version : Version) :
    Compare v version = -1 ∨ Compare v version = 0 ∨ Compare v version = 1 := by
  rw [Compare_eq_lex]
  split_ifs with h0
  · exact lexCompare_range _ _
  · cases hd : compareDate v.date version.date with
    | some r =>
      rcases compareDate_range _ _ _ hd with h | h <;> simp [h]
    | none =>
      cases hp : preScan v.prelist version.prelist with
      | some r =>
        rcases preScan_range _ _ _ hp with h | h <;> simp [h]
      | none => simp


/-! ## Transitivity -/

theorem combine_point (fxy fyz fxz gxy gyz gxz : Int)
    (hf : fxy ≤ 0 → fyz ≤ 0 → fxz ≤ 0 ∧ (fxz = 0 → fxy = 0 ∧ fyz = 0))
    (hg : gxy ≤ 0 → gyz ≤ 0 → gxz ≤ 0 ∧ (gxz = 0 → gxy = 0 ∧ gyz = 0))
    (hxy : (if fxy ≠ 0 then fxy else gxy) ≤ 0)
    (hyz : (if fyz ≠ 0 then fyz else gyz) ≤ 0) :
    (if fxz ≠ 0 then fxz else gxz) ≤ 0 ∧
      ((if fxz ≠ 0 then fxz else gxz) = 0 →
        (if fxy ≠ 0 then fxy else gxy) = 0 ∧ (if fyz ≠ 0 then fyz else gyz) = 0) := by
  have h1 : fxy ≤ 0 := by
    by_cases h : fxy ≠ 0
    · rw [if_pos h] at hxy; exact hxy
    · simp only [ne_eq, not_not] at h; omega
  have h2 : fyz ≤ 0 := by
    by_cases h : fyz ≠ 0
    · rw [if_pos h] at hyz; exact hyz
    · simp only [ne_eq, not_not] at h; omega
  obtain ⟨h3, h4⟩ := hf h1 h2
  by_cases h : fxz ≠ 0
  · rw [if_pos h]
    exact ⟨h3, fun h0 => absurd h0 h⟩
  · simp only [ne_eq, not_not] at h
    obtain ⟨h5, h6⟩ := h4 h
    simp only [h, h5, h6, ne_eq, not_true_eq_false, if_false] at hxy hyz ⊢
    exact hg hxy hyz

theorem triTrans_combine {α : Type} (S : α → Prop) (f g : α → α → Int)
    (hf : TriTrans S f) (hg : TriTrans S g) :
    TriTrans S (fun x y => if f x y ≠ 0 then f x y else g x y) :=
  fun x y z hx hy hz hxy hyz =>
    combine_point _ _ _ _ _ _ (hf x y z hx hy hz) (hg x y z hx hy hz) hxy hyz

theorem triTrans_string :
    TriTrans (fun _ : String => True)
      (fun x y => if x > y then 1 else if x < y then -1 else 0) := by
  intro x y z _ _ _ hxy hyz
  simp only at hxy hyz ⊢
  have h1 : x ≤ y := by
    by_contra h
    have h' : x > y := not_le.mp h
    simp [h'] at hxy
  have h2 : y ≤ z := by
    by_contra h
    have h' : y > z := not_le.mp h
    simp [h'] at hyz
  have h3 : x ≤ z := le_trans h1 h2
  have h4 : ¬ x > z := not_lt.mpr h3
  refine ⟨by simp only [h4, if_false]; split_ifs <;> simp, ?_⟩
  intro h0
  have h5 : ¬ x < z := by
    intro h
    simp [h4, h] at h0
  have h6 : x = z := le_antisymm h3 (not_lt.mp h5)
  subst h6
  have h7 : x = y := le_antisymm h1 h2
  subst h7
  simp

theorem triTrans_int :
    TriTrans (fun _ : Int => True)
      (fun x y => if x > y then 1 else if x < y then -1 else 0) := by
  intro x y z _ _ _ hxy hyz
  simp only at hxy hyz ⊢
  have h1 : x ≤ y := by
    by_contra h
    rw [not_le] at h
    simp [h] at hxy
  have h2 : y ≤ z := by
    by_contra h
    rw [not_le] at h
    simp [h] at hyz
  have h4 : ¬ x > z := by omega
  refine ⟨by simp only [h4, if_false]; split_ifs <;> simp, ?_⟩
  intro h0
  have h5 : ¬ x < z := by
    intro h
    simp [h4, h] at h0
  have h6 : x = z := by omega
  subst h6
  have h7 : x = y := by omega
  subst h7
  simp


theorem triTrans_pullback {α β : Type} (k : α → β) (S : β → Prop) (f : β → β → Int)
    (hf : TriTrans S f) :
    TriTrans (fun x => S (k x)) (fun x y => f (k x) (k y)) :=
  fun x y z hx hy hz hxy hyz => hf (k x) (k y) (k z) hx hy hz hxy hyz

theorem triTrans_mono {α : Type} (S T : α → Prop) (f : α → α → Int)
    (hST : ∀ x, T x → S x) (hf : TriTrans S f) : TriTrans T f :=
  fun x y z hx hy hz hxy hyz => hf x y z (hST x hx) (hST y hy) (hST z hz) hxy hyz

theorem triTrans_lexCompare : TriTrans (fun _ : List Int => True) lexCompare := by
  intro a
  induction a with
  | nil =>
    intro b c _ _ _ hab hbc
    cases b with
    | nil => exact ⟨hbc, fun h => ⟨rfl, h⟩⟩
    | cons y ys =>
      cases c with
      | nil => simp [lexCompare] at hbc
      | cons z zs => simp [lexCompare]
  | cons x xs ih =>
    intro b c _ _ _ hab hbc
    cases b with
    | nil => simp [lexCompare] at hab
    | cons y ys =>
      cases c with
      | nil => simp [lexCompare] at hbc
      | cons z zs =>
        simp only [lexCompare] at hab hbc ⊢
        by_cases h1 : x < y
        · have h3 : x < z := by
            by_contra h
            have : ¬ y < z := by omega
            simp only [this, if_false] at hbc
            split_ifs at hbc with h4
            · omega
            · omega
          simp [h3]
        · by_cases h2 : y < x
          · simp [h1, h2] at hab
          · have hxy : x = y := by omega
            subst hxy
            simp only [h1, if_false] at hab ⊢
            by_cases h3 : x < z
            · simp [h3]
            · by_cases h4 : z < x
              · simp [h3, h4] at hbc
              · simp only [h3, h4, if_false] at hbc ⊢
                exact ih ys zs trivial trivial trivial hab hbc

theorem comparePre_listed (p q : Pre) (hp : weights p.Letter ≠ "")
    (hq : weights q.Letter ≠ "") :
    comparePre p q =
      if (if weights p.Letter > weights q.Letter then (1 : Int)
          else if weights p.Letter < weights q.Letter then -1 else 0) ≠ 0
      then (if weights p.Letter > weights q.Letter then (1 : Int)
            else if weights p.Letter < weights q.Letter then -1 else 0)
      else (if p.Number > q.Number then 1 else if p.Number < q.Number then -1 else 0) := by
  unfold comparePre
  simp only [hp, hq, ne_eq, not_false_eq_true, if_true]
  split_ifs <;> simp_all

theorem triTrans_comparePre :
    TriTrans (fun p : Pre => weights p.Letter ≠ "") comparePre := by
  have h := triTrans_combine (fun p : Pre => weights p.Letter ≠ "")
    (fun p q => if weights p.Letter > weights q.Letter then (1 : Int)
      else if weights p.Letter < weights q.Letter then -1 else 0)
    (fun p q => if p.Number > q.Number then (1 : Int)
      else if p.Number < q.Number then -1 else 0)
    (triTrans_mono _ _ _ (fun _ _ => trivial)
      (triTrans_pullback (fun p : Pre => weights p.Letter) _ _ triTrans_string))
    (triTrans_mono _ _ _ (fun _ _ => trivial)
      (triTrans_pullback (fun p : Pre => p.Number) _ _ triTrans_int))
  intro x y z hx hy hz hxy hyz
  rw [comparePre_listed x y hx hy] at hxy
  rw [comparePre_listed y z hy hz] at hyz
  rw [comparePre_listed x z hx hz, comparePre_listed x y hx hy, comparePre_listed y z hy hz]
  exact h x y z hx hy hz hxy hyz

theorem comparePre_self (p : Pre) : comparePre p p = 0 := by
  unfold comparePre
  simp only []
  split_ifs with h1 h2 h3 h4 h5 <;> first
    | rfl
    | exact absurd h1 (lt_irrefl _)
    | exact absurd h2 (lt_irrefl _)
    | exact absurd h3 (lt_irrefl _)
    | exact absurd h4 (lt_irrefl _)
    | exact absurd h5 (lt_irrefl _)

theorem preScan_step (a b : List Pre) :
    preScan a b =
      if comparePre (a.headD ⟨"release", 0⟩) (b.headD ⟨"release", 0⟩) ≠ 0
      then some (comparePre (a.headD ⟨"release", 0⟩) (b.headD ⟨"release", 0⟩))
      else preScan a.tail b.tail := by
  cases a <;> cases b <;> simp [preScan, comparePre_self]

theorem weights_release : weights "release" ≠ "" := by decide

theorem triTrans_preScan :
    TriTrans allListed (fun a b => (preScan a b).getD 0) := by
  have key : ∀ (n : Nat) (a b c : List Pre), a.length + b.length + c.length ≤ n →
      allListed a → allListed b → allListed c →
      (preScan a b).getD 0 ≤ 0 → (preScan b c).getD 0 ≤ 0 →
      (preScan a c).getD 0 ≤ 0 ∧
        ((preScan a c).getD 0 = 0 → (preScan a b).getD 0 = 0 ∧ (preScan b c).getD 0 = 0) := by
    intro n
    induction n with
    | zero =>
      intro a b c hn _ _ _ _ _
      have ha : a = [] := List.length_eq_zero.mp (by omega)
      have hb : b = [] := List.length_eq_zero.mp (by omega)
      have hc : c = [] := List.length_eq_zero.mp (by omega)
      subst ha hb hc
      simp [preScan]
    | succ n ih =>
      intro a b c hn ha hb hc hab hbc
      by_cases hnil : a = [] ∧ b = [] ∧ c = []
      · obtain ⟨h1, h2, h3⟩ := hnil
        subst h1 h2 h3
        simp [preScan]
      · have hlen : a.tail.length + b.tail.length + c.tail.length ≤ n := by
          have h1 := List.length_tail a
          have h2 := List.length_tail b
          have h3 := List.length_tail c
          have : 0 < a.length ∨ 0 < b.length ∨ 0 < c.length := by
            by_contra hcon
            push_neg at hcon
            exact hnil ⟨List.length_eq_zero.mp (by omega), List.length_eq_zero.mp (by omega),
              List.length_eq_zero.mp (by omega)⟩
          omega
        have tl : ∀ l : List Pre, allListed l → allListed l.tail :=
          fun l hl p hp => hl p (List.mem_of_mem_tail hp)
        have hd : ∀ l : List Pre, allListed l →
            weights (l.headD ⟨"release", 0⟩).Letter ≠ "" := by
          intro l hl
          cases l with
          | nil => exact weights_release
          | cons x xs => exact hl x (List.mem_cons_self _ _)
        have step : ∀ a b : List Pre, (preScan a b).getD 0 =
            (if comparePre (a.headD ⟨"release", 0⟩) (b.headD ⟨"release", 0⟩) ≠ 0
             then comparePre (a.headD ⟨"release", 0⟩) (b.headD ⟨"release", 0⟩)
             else (preScan a.tail b.tail).getD 0) := by
          intro a b
          rw [preScan_step a b]
          split_ifs <;> simp
        rw [step a b] at hab
        rw [step b c] at hbc
        rw [step a c, step a b, step b c]
        exact combine_point _ _ _ _ _ _
          (triTrans_comparePre _ _ _ (hd a ha) (hd b hb) (hd c hc))
          (ih a.tail b.tail c.tail hlen (tl a ha) (tl b hb) (tl c hc)) hab hbc
  intro a b c ha hb hc hab hbc
  exact key _ a b c le_rfl ha hb hc hab hbc


/-- The date and qualifier tiers of `Compare`, as one three-way comparison. -/
theorem Compare_eq_tiers (v version : Version) :
    Compare v version =
      if lexCompare v.release version.release ≠ 0 then lexCompare v.release version.release
      else
        if v.date ≠ "" ∧ version.date ≠ "" then
          if (if v.date > version.date then (1 : Int)
              else if v.date < version.date then -1 else 0) ≠ 0
          then (if v.date > version.date then (1 : Int)
                else if v.date < version.date then -1 else 0)
          else (preScan v.prelist version.prelist).getD 0
        else (preScan v.prelist version.prelist).getD 0 := by
  rw [Compare_eq_lex]
  have hget : (match preScan v.prelist version.prelist with
      | some r => r
      | none => 0) = (preScan v.prelist version.prelist).getD 0 := by
    cases preScan v.prelist version.prelist <;> rfl
  rw [hget]
  unfold compareDate
  split_ifs <;> simp_all

theorem Compare_trans_of (a b c : Version)
    (hdate : (a.date = "" ∧ b.date = "" ∧ c.date = "") ∨
      (a.date ≠ "" ∧ b.date ≠ "" ∧ c.date ≠ ""))
    (ha : allListed a.prelist) (hb : allListed b.prelist) (hc : allListed c.prelist)
    (hab : Compare a b ≤ 0) (hbc : Compare b c ≤ 0) : Compare a c ≤ 0 := by
  rw [Compare_eq_tiers] at hab hbc ⊢
  have hpre := triTrans_preScan a.prelist b.prelist c.prelist ha hb hc
  refine (combine_point _ _ _ _ _ _
    (triTrans_lexCompare a.release b.release c.release trivial trivial trivial) ?_ hab hbc).1
  rcases hdate with ⟨h1, h2, h3⟩ | ⟨h1, h2, h3⟩
  · simp only [h1, h2, h3, ne_eq, not_true_eq_false, and_self, if_false]
    exact hpre
  · simp only [h1, h2, h3, ne_eq, not_false_eq_true, and_self, if_true]
    exact combine_point _ _ _ _ _ _
      (triTrans_string a.date b.date c.date trivial trivial trivial) hpre


/-! ## Claims about the order -/

/-- C1, evaluated on the code: antisymmetry fails for the non-empty strings
`"1.0-alpha.1.0"` and `"1.0-alpha.1"`.  Their qualifier lists differ in the entry
`("0", 0)` against the synthetic `("release", 0)`; because `comparePre` takes the
fallback of `weight2` from `pre1`, both orders of that pair give `-1`, and so do
both orders of `Compare`. -/
theorem C1_antisymmetry_violated :
    "1.0-alpha.1.0" ≠ "" ∧ "1.0-alpha.1" ≠ "" ∧
    (Parse "1.0-alpha.1.0").prelist = [⟨"alpha", 1⟩, ⟨"0", 0⟩] ∧
    (Parse "1.0-alpha.1").prelist = [⟨"alpha", 1⟩] ∧
    comparePre ⟨"0", 0⟩ ⟨"release", 0⟩ = -1 ∧
    comparePre ⟨"release", 0⟩ ⟨"0", 0⟩ = -1 ∧
    Compare (Parse "1.0-alpha.1.0") (Parse "1.0-alpha.1") = -1 ∧
    Compare (Parse "1.0-alpha.1") (Parse "1.0-alpha.1.0") = -1 := by
  decide!

/-- C2 as stated is false: `"1.20230115" ≤ "1"` and `"1" ≤ "1.20220115"` (the date
tier is skipped when one side has no date), yet `"1.20230115"` compares greater
than `"1.20220115"`. -/
theorem C2_transitivity_counterexample :
    "1.20230115" ≠ "" ∧ "1" ≠ "" ∧ "1.20220115" ≠ "" ∧
    Compare (Parse "1.20230115") (Parse "1") ≤ 0 ∧
    Compare (Parse "1") (Parse "1.20220115") ≤ 0 ∧
    ¬ Compare (Parse "1.20230115") (Parse "1.20220115") ≤ 0 := by
  decide!

/-- Transitivity also fails without dates when a qualifier name is not a key of
the weight table: the qualifier lists of "1-a1.5", "1-a1.0" and "1-a1-alpha" end
in `("5", 0)`, `("0", 0)` and `("alpha", 0)`, and `comparePre` compares the
first two by their numbers only. -/
theorem Compare_not_transitive_unlisted :
    Compare (Parse "1-a1.5") (Parse "1-a1.0") = 0 ∧
    Compare (Parse "1-a1.0") (Parse "1-a1-alpha") = -1 ∧
    Compare (Parse "1-a1.5") (Parse "1-a1-alpha") = 1 := by
  decide!

/-- C2, amended: for all non-empty strings `s`, `t`, `u` whose parsed versions
either all carry a date or all carry none, and all of whose qualifier names are
keys of the weight table, `Compare (Parse s) (Parse t) ≤ 0` and
`Compare (Parse t) (Parse u) ≤ 0` imply `Compare (Parse s) (Parse u) ≤ 0`. -/
theorem C2_transitivity_amended (s t u : String)
    (hs : s ≠ "") (ht : t ≠ "") (hu : u ≠ "")
    (hdate : ((Parse s).date = "" ∧ (Parse t).date = "" ∧ (Parse u).date = "") ∨
      ((Parse s).date ≠ "" ∧ (Parse t).date ≠ "" ∧ (Parse u).date ≠ ""))
    (hls : allListed (Parse s).prelist) (hlt : allListed (Parse t).prelist)
    (hlu : allListed (Parse u).prelist)
    (hst : Compare (Parse s) (Parse t) ≤ 0) (htu : Compare (Parse t) (Parse u) ≤ 0) :
    Compare (Parse s) (Parse u) ≤ 0 :=
  Compare_trans_of (Parse s) (Parse t) (Parse u) hdate hls hlt hlu hst htu

/-- Witness of C2 (amended): `"1.0-alpha" ≤ "1.0-beta" ≤ "1.0"`. -/
theorem C2_transitivity_amended_witness :
    Compare (Parse "1.0-alpha") (Parse "1.0-beta") ≤ 0 ∧
    Compare (Parse "1.0-beta") (Parse "1.0") ≤ 0 ∧
    Compare (Parse "1.0-alpha") (Parse "1.0") ≤ 0 :=
  ⟨by decide!, by decide!,
    C2_transitivity_amended "1.0-alpha" "1.0-beta" "1.0" (by decide) (by decide) (by decide)
      (Or.inl (by decide!)) (by decide!) (by decide!) (by decide!) (by decide!) (by decide!)⟩

/-- C3: for all `Version` values `a` and `b` whose release lists differ,
`a.Compare(b)` equals the lexicographic comparison of the two integer lists (the
first differing element decides numerically, a proper prefix is smaller),
whatever the dates and qualifier lists are; the result is one of -1, 0, 1. -/
theorem C3_release_tier_dominates (a b : Version) (h : a.release ≠ b.release) :
    Compare a b = lexCompare a.release b.release ∧
    (Compare a b = -1 ∨ Compare a b = 0 ∨ Compare a b = 1) := by
  refine ⟨?_, Compare_range a b⟩
  rw [Compare_eq_lex]
  have h0 : lexCompare a.release b.release ≠ 0 :=
    fun h0 => h ((lexCompare_eq_zero _ _).mp h0)
  rw [if_pos h0]

/-- Witness of C3: release `[1, 2]` against its proper prefix `[1]`, with a date
and a qualifier on one side only. -/
theorem C3_release_tier_dominates_witness :
    (⟨"1.2", [1, 2], "20230115000000", [⟨"alpha", 1⟩]⟩ : Version).release
      ≠ (⟨"1", [1], "", []⟩ : Version).release ∧
    Compare ⟨"1.2", [1, 2], "20230115000000", [⟨"alpha", 1⟩]⟩ ⟨"1", [1], "", []⟩ = 1 := by
  have h := C3_release_tier_dominates
    ⟨"1.2", [1, 2], "20230115000000", [⟨"alpha", 1⟩]⟩ ⟨"1", [1], "", []⟩ (by decide)
  exact ⟨by decide, h.1.trans (by decide)⟩

/-! ## The loop of `parseVersion` -/

theorem parseLoop_eq_parseTokens (list : List String) :
    ∀ (fuel i : Nat) (releaseFlag : Bool) (v : Version), list.length - i ≤ fuel →
      parseLoop list fuel i releaseFlag v = parseTokens (list.drop i) releaseFlag v := by
  intro fuel
  induction fuel using Nat.strong_induction_on with
  | _ fuel ih =>
    intro i releaseFlag v hi
    by_cases hil : i < list.length
    · obtain ⟨t, e, et⟩ := getD_eq_head_drop list i "" hil
      cases fuel with
      | zero => omega
      | succ n =>
        have hn : ∀ j, i < j → ∀ (f : Bool) (w : Version),
            parseLoop list n j f w = parseTokens (list.drop j) f w :=
          fun j hj f w => ih n (Nat.lt_succ_self n) j f w (by omega)
        rw [e, parseTokens]
        simp only [parseLoop, hil, if_true]
        generalize list.getD i "" = part at e ⊢
        by_cases hm : part = "_" ∨ part = "-"
        · rw [if_pos hm, if_pos hm, hn (i + 1) (by omega), et]
        · rw [if_neg hm, if_neg hm]
          by_cases hd : datePattern (part) = true
          · rw [if_pos hd, if_pos hd, hn (i + 1) (by omega), et]
          · rw [if_neg hd, if_neg hd]
            by_cases hr : releaseFlag = true ∧ (Atoi (part)).2 = true
            · rw [if_pos hr, if_pos hr, hn (i + 1) (by omega), et]
            · rw [if_neg hr, if_neg hr]
              have hal : (match keyword (part) with
                  | some value => value
                  | none => part) = aliasOf (part) := rfl
              rw [hal]
              by_cases ha : (Atoi (aliasOf (part))).2 = true
              · have hla : lookahead (aliasOf (part)) t = (0, false) := by
                  simp [lookahead, ha]
                simp only [hla, ha, Bool.false_eq_true, not_false_eq_true, not_true_eq_false, if_true, if_false,
                        List.tail_cons]
                rw [hn (i + 1) (by omega), et]
              · have ha' : ¬ ¬ (Atoi (aliasOf (part))).2 = true ↔ False := by
                  simp [ha]
                cases t with
                | nil =>
                  have hlen : ¬ i + 1 < list.length := by
                    intro h
                    have := List.drop_eq_nil_iff.mp et
                    omega
                  have hla : lookahead (aliasOf (part)) [] = (0, false) := by
                    simp [lookahead]
                  simp only [hla, ha, hlen, Bool.false_eq_true, not_false_eq_true, not_true_eq_false, if_true, if_false,
                        List.tail_cons]
                  rw [hn (i + 1) (by omega), et]
                | cons next t' =>
                  have hlen : i + 1 < list.length := by
                    by_contra h
                    have := List.drop_eq_nil_of_le (by omega : list.length ≤ i + 1)
                    rw [this] at et
                    exact absurd et (by simp)
                  obtain ⟨t2, e2, et2⟩ := getD_eq_head_drop list (i + 1) "" hlen
                  rw [et] at e2
                  simp only [List.cons.injEq] at e2
                  obtain ⟨e2a, e2b⟩ := e2
                  subst e2b
                  generalize list.getD (i + 1) "" = nx at e2a ⊢
                  subst e2a
                  by_cases hnd : datePattern next = true
                  · have hla : lookahead (aliasOf (part)) (next :: t') = (0, false) := by
                      simp [lookahead, hnd]
                    simp only [hla, ha, hlen, hnd, Bool.false_eq_true, not_false_eq_true, not_true_eq_false, if_true, if_false,
                        List.tail_cons]
                    rw [hn (i + 1) (by omega), et]
                  · by_cases hok : (Atoi next).2 = true
                    · have hla : lookahead (aliasOf (part)) (next :: t')
                          = ((Atoi next).1, true) := by
                        simp [lookahead, hnd, ha, hok]
                      simp only [hla, ha, hlen, hnd, hok, Bool.false_eq_true, not_false_eq_true, not_true_eq_false, if_true, if_false,
                        List.tail_cons]
                      rw [hn (i + 1 + 1) (by omega), et2]
                    · have hla : lookahead (aliasOf (part)) (next :: t')
                          = ((Atoi next).1, false) := by
                        simp [lookahead, hnd, ha, hok]
                      simp only [hla, ha, hlen, hnd, hok, Bool.false_eq_true, not_false_eq_true, not_true_eq_false, if_true, if_false,
                        List.tail_cons]
                      rw [hn (i + 1) (by omega), et]
    · have hdrop : list.drop i = [] := List.drop_eq_nil_of_le (by omega)
      rw [hdrop, parseTokens]
      cases fuel <;> simp [parseLoop, hil]

/-! ## Trailing zeros -/

theorem trimLoop_spec (release : List Int) :
    ∀ j, j ≤ release.length →
      release.take (trimLoop release j j) = dropTrailingZeros (release.take j) := by
  intro j
  induction j with
  | zero => intro _; simp [trimLoop, dropTrailingZeros, List.rdropWhile]
  | succ j ih =>
    intro hj
    have hlt : j < release.length := by omega
    obtain ⟨t, e, _⟩ := getD_eq_head_drop release j 0 hlt
    have htake : release.take (j + 1) = release.take j ++ [release.getD j 0] := by
      rw [List.take_succ, List.getD_eq_getElem?_getD, List.getElem?_eq_getElem hlt]
      simp
    rw [htake]
    unfold dropTrailingZeros at ih ⊢
    by_cases h0 : release.getD j 0 = 0
    · rw [trimLoop, if_pos h0,
        List.rdropWhile_concat_pos _ _ _ (by simp only [beq_iff_eq]; exact h0)]
      exact ih (by omega)
    · rw [trimLoop, if_neg h0,
        List.rdropWhile_concat_neg _ _ _ (by simp only [beq_iff_eq]; exact h0), htake]

theorem trimRelease_eq (release : List Int) :
    trimRelease release = dropTrailingZeros release := by
  unfold trimRelease
  by_cases h : release.length > 0
  · rw [if_pos h]
    have hs := trimLoop_spec release release.length le_rfl
    rw [List.take_length] at hs
    simp only []
    split_ifs with h1
    · exact hs
    · rw [← hs, List.take_of_length_le (by omega)]
  · rw [if_neg h]
    have : release = [] := List.length_eq_zero.mp (by omega)
    subst this
    simp [dropTrailingZeros, List.rdropWhile]

theorem dropTrailingZeros_append_zero (release : List Int) :
    dropTrailingZeros (release ++ [0]) = dropTrailingZeros release :=
  List.rdropWhile_concat_pos _ _ _ (by simp)

theorem dropTrailingZeros_last (release : List Int) (h : dropTrailingZeros release ≠ []) :
    (dropTrailingZeros release).getLast h ≠ 0 := by
  have := List.rdropWhile_last_not (fun x : Int => x == 0) release h
  simpa using this

theorem dropTrailingZeros_mem (release : List Int) (x : Int)
    (h : x ∈ dropTrailingZeros release) : x ∈ release :=
  (List.rdropWhile_prefix _ release).subset h

/-! ## The tokenizer -/

theorem flushBuf_buf (st : SplitState) : (flushBuf st).buf = [] := by
  unfold flushBuf
  split_ifs with h
  · rfl
  · exact List.length_eq_zero.mp (by omega)

theorem flushBuf_lastRune (st : SplitState) : (flushBuf st).lastRune = st.lastRune := by
  unfold flushBuf
  split_ifs <;> rfl

theorem flushBuf_prepend (pre : List String) (st : SplitState) :
    flushBuf (prependTokens pre st) = prependTokens pre (flushBuf st) := by
  unfold flushBuf prependTokens
  split_ifs <;> simp

theorem splitStep_prepend (pre : List String) (st : SplitState) (r : Char) :
    splitStep (prependTokens pre st) r = prependTokens pre (splitStep st r) := by
  have hl : (prependTokens pre st).lastRune = st.lastRune := rfl
  unfold splitStep
  simp only [flushBuf_prepend, hl]
  split_ifs <;> simp [prependTokens]

theorem foldl_splitStep_prepend (pre : List String) (cs : List Char) :
    ∀ st, cs.foldl splitStep (prependTokens pre st) = prependTokens pre (cs.foldl splitStep st) := by
  induction cs with
  | nil => intro st; rfl
  | cons c cs ih =>
    intro st
    simp only [List.foldl_cons, splitStep_prepend, ih]


theorem isDigitRune_iff (c : Char) : isDigitRune c = true ↔ ('0' ≤ c ∧ c ≤ '9') := by
  simp [isDigitRune]

theorem isLowerRune_iff (c : Char) : isLowerRune c = true ↔ ('a' ≤ c ∧ c ≤ 'z') := by
  simp [isLowerRune]

theorem not_digit_of_lower (c : Char) (h : isLowerRune c = true) : ¬ ('0' ≤ c ∧ c ≤ '9') := by
  rw [isLowerRune_iff] at h
  rintro ⟨-, h9⟩
  exact absurd (le_trans h.1 h9) (by decide)

theorem not_lower_of_digit (c : Char) (h : isDigitRune c = true) : isLowerRune c = false := by
  cases hl : isLowerRune c with
  | false => rfl
  | true => exact absurd ((isDigitRune_iff c).mp h) (not_digit_of_lower c hl)

theorem splitStep_digit (st : SplitState) (c : Char) (hc : isDigitRune c = true) :
    splitStep st c =
      if st.lastRune ≠ 'N'.toNat then ⟨(flushBuf st).list, [c], 'N'.toNat⟩
      else ⟨st.list, st.buf ++ [c], 'N'.toNat⟩ := by
  unfold splitStep
  rw [if_pos ((isDigitRune_iff c).mp hc)]
  split_ifs <;> simp [flushBuf_buf]

theorem splitStep_lower (st : SplitState) (c : Char) (hc : isLowerRune c = true) :
    splitStep st c =
      if st.lastRune ≠ 'S'.toNat then ⟨(flushBuf st).list, [c], 'S'.toNat⟩
      else ⟨st.list, st.buf ++ [c], 'S'.toNat⟩ := by
  unfold splitStep
  rw [if_neg (not_digit_of_lower c hc), if_pos ((isLowerRune_iff c).mp hc)]
  split_ifs <;> simp [flushBuf_buf]

theorem splitStep_other (st : SplitState) (c : Char) (hd : isDigitRune c = false)
    (hl : isLowerRune c = false) :
    splitStep st c = ⟨(flushBuf st).list, [], 0⟩ := by
  unfold splitStep
  have h1 : ¬ ('0' ≤ c ∧ c ≤ '9') := by
    intro h; rw [(isDigitRune_iff c).mpr h] at hd; exact absurd hd (by simp)
  have h2 : ¬ ('a' ≤ c ∧ c ≤ 'z') := by
    intro h; rw [(isLowerRune_iff c).mpr h] at hl; exact absurd hl (by simp)
  rw [if_neg h1, if_neg h2]
  simp [flushBuf_buf]

theorem foldl_digits (ds : List Char) (hds : ∀ c ∈ ds, isDigitRune c = true) :
    ∀ (l : List String) (buf : List Char),
      ds.foldl splitStep ⟨l, buf, 'N'.toNat⟩ = ⟨l, buf ++ ds, 'N'.toNat⟩ := by
  induction ds with
  | nil => intro l buf; simp
  | cons d ds ih =>
    intro l buf
    rw [List.foldl_cons, splitStep_digit _ _ (hds d (List.mem_cons_self _ _))]
    simp only [ne_eq, not_true_eq_false, if_false]
    rw [ih (fun c hc => hds c (List.mem_cons_of_mem _ hc))]
    simp

theorem foldl_lowers (ds : List Char) (hds : ∀ c ∈ ds, isLowerRune c = true) :
    ∀ (l : List String) (buf : List Char),
      ds.foldl splitStep ⟨l, buf, 'S'.toNat⟩ = ⟨l, buf ++ ds, 'S'.toNat⟩ := by
  induction ds with
  | nil => intro l buf; simp
  | cons d ds ih =>
    intro l buf
    rw [List.foldl_cons, splitStep_lower _ _ (hds d (List.mem_cons_self _ _))]
    simp only [ne_eq, not_true_eq_false, if_false]
    rw [ih (fun c hc => hds c (List.mem_cons_of_mem _ hc))]
    simp

theorem flushBuf_init : flushBuf ⟨[], [], 0⟩ = ⟨[], [], 0⟩ := rfl

/-- A digit run at the start of the input is read into the buffer. -/
theorem foldl_digitRun (d : Char) (ds : List Char)
    (hds : ∀ c ∈ d :: ds, isDigitRune c = true) :
    (d :: ds).foldl splitStep ⟨[], [], 0⟩ = ⟨[], d :: ds, 'N'.toNat⟩ := by
  rw [List.foldl_cons, splitStep_digit _ _ (hds d (List.mem_cons_self _ _))]
  rw [if_pos (by decide), flushBuf_init]
  rw [foldl_digits ds (fun c hc => hds c (List.mem_cons_of_mem _ hc))]
  simp

/-- A letter run at the start of the input is read into the buffer. -/
theorem foldl_letterRun (d : Char) (ds : List Char)
    (hds : ∀ c ∈ d :: ds, isLowerRune c = true) :
    (d :: ds).foldl splitStep ⟨[], [], 0⟩ = ⟨[], d :: ds, 'S'.toNat⟩ := by
  rw [List.foldl_cons, splitStep_lower _ _ (hds d (List.mem_cons_self _ _))]
  rw [if_pos (by decide), flushBuf_init]
  rw [foldl_lowers ds (fun c hc => hds c (List.mem_cons_of_mem _ hc))]
  simp

theorem splitStep_after_digits (d : Char) (ds : List Char) (c : Char)
    (hc : isDigitRune c = false) :
    splitStep ⟨[], d :: ds, 'N'.toNat⟩ c
      = prependTokens [String.mk (d :: ds)] (splitStep ⟨[], [], 0⟩ c) := by
  by_cases hl : isLowerRune c = true
  · have h1 : (SplitState.mk [] (d :: ds) 'N'.toNat).lastRune ≠ 'S'.toNat := by
      show 'N'.toNat ≠ 'S'.toNat
      decide
    have h2 : (SplitState.mk [] [] 0).lastRune ≠ 'S'.toNat := by decide
    rw [splitStep_lower _ _ hl, splitStep_lower _ _ hl, if_pos h1, if_pos h2]
    simp [flushBuf, prependTokens]
  · rw [Bool.not_eq_true] at hl
    rw [splitStep_other _ _ hc hl, splitStep_other _ _ hc hl]
    simp [flushBuf, prependTokens]

theorem splitStep_after_letters (d : Char) (ds : List Char) (c : Char)
    (hc : isLowerRune c = false) :
    splitStep ⟨[], d :: ds, 'S'.toNat⟩ c
      = prependTokens [String.mk (d :: ds)] (splitStep ⟨[], [], 0⟩ c) := by
  by_cases hl : isDigitRune c = true
  · have h1 : (SplitState.mk [] (d :: ds) 'S'.toNat).lastRune ≠ 'N'.toNat := by
      show 'S'.toNat ≠ 'N'.toNat
      decide
    have h2 : (SplitState.mk [] [] 0).lastRune ≠ 'N'.toNat := by decide
    rw [splitStep_digit _ _ hl, splitStep_digit _ _ hl, if_pos h1, if_pos h2]
    simp [flushBuf, prependTokens]
  · rw [Bool.not_eq_true] at hl
    rw [splitStep_other _ _ hl hc, splitStep_other _ _ hl hc]
    simp [flushBuf, prependTokens]

/-- A digit run followed by the end of the input or by a rune that is not a
digit is the first token. -/
theorem split_digitRun_append (r rest : String) (hr : isDigitRun r = true)
    (hrest : ∀ c, rest.data.head? = some c → isDigitRune c = false) :
    splitVersionParts (r ++ rest) = r :: splitVersionParts rest := by
  obtain ⟨rd⟩ := r
  obtain ⟨cs⟩ := rest
  simp only [isDigitRun, Bool.and_eq_true, Bool.not_eq_true', List.isEmpty_eq_false,
    List.all_eq_true] at hr
  obtain ⟨hne, hall⟩ := hr
  cases rd with
  | nil => exact absurd rfl hne
  | cons d ds =>
    unfold splitVersionParts
    rw [String.data_append, List.foldl_append, foldl_digitRun d ds hall]
    cases cs with
    | nil => simp [flushBuf]
    | cons c cs =>
      have hc := hrest c rfl
      rw [List.foldl_cons, splitStep_after_digits d ds c hc, foldl_splitStep_prepend,
        flushBuf_prepend]
      simp [prependTokens]

/-- A letter run followed by the end of the input or by a rune that is not a
lowercase letter is the first token. -/
theorem split_letterRun_append (r rest : String) (hr : isLetterRun r = true)
    (hrest : ∀ c, rest.data.head? = some c → isLowerRune c = false) :
    splitVersionParts (r ++ rest) = r :: splitVersionParts rest := by
  obtain ⟨rd⟩ := r
  obtain ⟨cs⟩ := rest
  simp only [isLetterRun, Bool.and_eq_true, Bool.not_eq_true', List.isEmpty_eq_false,
    List.all_eq_true] at hr
  obtain ⟨hne, hall⟩ := hr
  cases rd with
  | nil => exact absurd rfl hne
  | cons d ds =>
    unfold splitVersionParts
    rw [String.data_append, List.foldl_append, foldl_letterRun d ds hall]
    cases cs with
    | nil => simp [flushBuf]
    | cons c cs =>
      have hc := hrest c rfl
      rw [List.foldl_cons, splitStep_after_letters d ds c hc, foldl_splitStep_prepend,
        flushBuf_prepend]
      simp [prependTokens]

/-- A rune that is neither a digit nor a lowercase letter at the start of the
input yields no token. -/
theorem split_sep_append (sep rest : String) (c : Char) (hsep : sep.data = [c])
    (hd : isDigitRune c = false) (hl : isLowerRune c = false) :
    splitVersionParts (sep ++ rest) = splitVersionParts rest := by
  unfold splitVersionParts
  rw [String.data_append, hsep, List.singleton_append, List.foldl_cons,
    splitStep_other _ _ hd hl, flushBuf_init]

theorem split_empty : splitVersionParts "" = [] := rfl


/-- Tokens of digit runs joined by a separator rune, followed by `tail`. -/
theorem split_joinWith (sep : String) (c : Char) (hsep : sep.data = [c])
    (hd : isDigitRune c = false) (hl : isLowerRune c = false) :
    ∀ (runs : List String), runs ≠ [] → (∀ r ∈ runs, isDigitRun r = true) →
      ∀ tail : String, (∀ x, tail.data.head? = some x → isDigitRune x = false) →
        splitVersionParts (joinWith sep runs ++ tail) = runs ++ splitVersionParts tail := by
  intro runs
  induction runs with
  | nil => intro h; exact absurd rfl h
  | cons r rs ih =>
    intro _ hruns tail htail
    cases rs with
    | nil =>
      rw [joinWith, split_digitRun_append r tail (hruns r (List.mem_cons_self _ _)) htail]
      rfl
    | cons r' rs' =>
      rw [joinWith, String.append_assoc, String.append_assoc,
        split_digitRun_append r _ (hruns r (List.mem_cons_self _ _)),
        split_sep_append sep _ c hsep hd hl,
        ih (by simp) (fun x hx => hruns x (List.mem_cons_of_mem _ hx)) tail htail]
      · rfl
      · intro x hx
        rw [String.data_append, hsep] at hx
        simp only [List.singleton_append, List.head?_cons, Option.some.injEq] at hx
        rw [← hx]
        exact hd

theorem toLowerRune_digit (c : Char) (h : isDigitRune c = true) : toLowerRune c = c := by
  rw [isDigitRune_iff] at h
  unfold toLowerRune
  have h1 : ¬ ('A' ≤ c ∧ c ≤ 'Z') := by
    rintro ⟨hA, -⟩
    exact absurd (le_trans hA h.2) (by decide)
  have h2 : ¬ c = Char.ofNat 0x130 := by
    rintro rfl
    exact absurd h.2 (by decide)
  have h3 : ¬ c = Char.ofNat 0x212A := by
    rintro rfl
    exact absurd h.2 (by decide)
  rw [if_neg h1, if_neg h2, if_neg h3]

theorem toLowerRune_lower (c : Char) (h : isLowerRune c = true) : toLowerRune c = c := by
  rw [isLowerRune_iff] at h
  unfold toLowerRune
  have h1 : ¬ ('A' ≤ c ∧ c ≤ 'Z') := by
    rintro ⟨-, hZ⟩
    exact absurd (le_trans h.1 hZ) (by decide)
  have h2 : ¬ c = Char.ofNat 0x130 := by
    rintro rfl
    exact absurd h.2 (by decide)
  have h3 : ¬ c = Char.ofNat 0x212A := by
    rintro rfl
    exact absurd h.2 (by decide)
  rw [if_neg h1, if_neg h2, if_neg h3]

theorem ToLower_eq_self (s : String) (h : ∀ c ∈ s.data, toLowerRune c = c) :
    ToLower s = s := by
  obtain ⟨cs⟩ := s
  unfold ToLower
  congr 1
  show cs.map toLowerRune = cs
  have h' : ∀ c ∈ cs, toLowerRune c = c := h
  clear h
  induction cs with
  | nil => rfl
  | cons x xs ih =>
    rw [List.map_cons, h' x (List.mem_cons_self _ _),
      ih (fun c hc => h' c (List.mem_cons_of_mem _ hc))]

theorem ToLower_digitRun (r : String) (h : isDigitRun r = true) :
    ∀ c ∈ r.data, toLowerRune c = c := by
  simp only [isDigitRun, Bool.and_eq_true, List.all_eq_true] at h
  exact fun c hc => toLowerRune_digit c (h.2 c hc)

theorem ToLower_letterRun (r : String) (h : isLetterRun r = true) :
    ∀ c ∈ r.data, toLowerRune c = c := by
  simp only [isLetterRun, Bool.and_eq_true, List.all_eq_true] at h
  exact fun c hc => toLowerRune_lower c (h.2 c hc)

theorem lowerFixed_append (s t : String) (hs : ∀ c ∈ s.data, toLowerRune c = c)
    (ht : ∀ c ∈ t.data, toLowerRune c = c) : ∀ c ∈ (s ++ t).data, toLowerRune c = c := by
  intro c hc
  rw [String.data_append, List.mem_append] at hc
  exact hc.elim (hs c) (ht c)

theorem lowerFixed_joinWith (sep : String) (hsep : ∀ c ∈ sep.data, toLowerRune c = c) :
    ∀ (runs : List String), (∀ r ∈ runs, isDigitRun r = true) →
      ∀ c ∈ (joinWith sep runs).data, toLowerRune c = c := by
  intro runs
  induction runs with
  | nil => intro _ c hc; simp [joinWith] at hc
  | cons r rs ih =>
    intro hruns
    cases rs with
    | nil => exact ToLower_digitRun r (hruns r (List.mem_cons_self _ _))
    | cons r' rs' =>
      rw [joinWith]
      exact lowerFixed_append _ _
        (lowerFixed_append _ _ (ToLower_digitRun r (hruns r (List.mem_cons_self _ _))) hsep)
        (ih (fun x hx => hruns x (List.mem_cons_of_mem _ hx)))


/-! ## How `parseVersion` reads digit runs and letter runs -/

theorem digitRun_data (r : String) (h : isDigitRun r = true) :
    ∃ d ds, r.data = d :: ds ∧ isDigitRune d = true ∧ ∀ c ∈ d :: ds, isDigitRune c = true := by
  simp only [isDigitRun, Bool.and_eq_true, Bool.not_eq_true', List.isEmpty_eq_false,
    List.all_eq_true] at h
  obtain ⟨hne, hall⟩ := h
  cases hd : r.data with
  | nil => exact absurd hd hne
  | cons d ds =>
    rw [hd] at hall
    exact ⟨d, ds, rfl, hall d (List.mem_cons_self _ _), hall⟩

theorem letterRun_data (r : String) (h : isLetterRun r = true) :
    ∃ d ds, r.data = d :: ds ∧ isLowerRune d = true ∧ ∀ c ∈ d :: ds, isLowerRune c = true := by
  simp only [isLetterRun, Bool.and_eq_true, Bool.not_eq_true', List.isEmpty_eq_false,
    List.all_eq_true] at h
  obtain ⟨hne, hall⟩ := h
  cases hd : r.data with
  | nil => exact absurd hd hne
  | cons d ds =>
    rw [hd] at hall
    exact ⟨d, ds, rfl, hall d (List.mem_cons_self _ _), hall⟩

theorem not_letterRun_of_digitRun (r : String) (h : isDigitRun r = true) :
    isLetterRun r = false := by
  obtain ⟨d, ds, hd, hdig, -⟩ := digitRun_data r h
  cases hl : isLetterRun r with
  | false => rfl
  | true =>
    obtain ⟨d', ds', hd', hlow, -⟩ := letterRun_data r hl
    rw [hd] at hd'
    simp only [List.cons.injEq] at hd'
    rw [← hd'.1, not_lower_of_digit d hdig] at hlow
    exact absurd hlow (by simp)

theorem Atoi_digitRun (r : String) (h : isDigitRun r = true) :
    Atoi r = if fitsInt r = true then ((digitsValue r.data : Int), true)
      else ((2 ^ (intSize - 1) - 1 : Int), false) := by
  obtain ⟨d, ds, hd, hdig, hall⟩ := digitRun_data r h
  have hd9 := (isDigitRune_iff d).mp hdig
  have h1 : d ≠ '-' := by
    rintro rfl
    exact absurd hd9.1 (by decide)
  have h2 : d ≠ '+' := by
    rintro rfl
    exact absurd hd9.1 (by decide)
  have hall' : (d :: ds).all isDigitRune = true := List.all_eq_true.mpr hall
  unfold Atoi fitsInt
  simp only [hd, List.head?_cons, Option.some.injEq, h1, h2, or_self, if_false,
    decide_False, hall', not_true_eq_false, reduceCtorEq, Bool.false_eq_true,
    decide_eq_true_eq]
  by_cases hf : digitsValue (d :: ds) ≤ 2 ^ (intSize - 1) - 1
  · have : ¬ digitsValue (d :: ds) > 2 ^ (intSize - 1) - 1 := by omega
    simp only [hf, this, if_true, if_false]
  · have : digitsValue (d :: ds) > 2 ^ (intSize - 1) - 1 := by omega
    simp only [hf, this, if_true, if_false]

theorem Atoi_letterRun (r : String) (h : isLetterRun r = true) : Atoi r = (0, false) := by
  obtain ⟨d, ds, hd, hlow, hall⟩ := letterRun_data r h
  have hda := (isLowerRune_iff d).mp hlow
  have h1 : d ≠ '-' := by
    rintro rfl
    exact absurd hda.1 (by decide)
  have h2 : d ≠ '+' := by
    rintro rfl
    exact absurd hda.1 (by decide)
  have hnd : isDigitRune d = false := by
    cases hx : isDigitRune d with
    | false => rfl
    | true => rw [not_lower_of_digit d hx] at hlow; exact absurd hlow (by simp)
  unfold Atoi
  simp only [hd, List.head?_cons, Option.some.injEq, h1, h2, or_self, if_false,
    List.all_cons, hnd, Bool.false_and, Bool.false_eq_true, not_false_eq_true, or_true, if_true]

theorem datePattern_letterRun (r : String) (h : isLetterRun r = true) :
    datePattern r = false := by
  obtain ⟨d, ds, hd, hlow, -⟩ := letterRun_data r h
  have hda := (isLowerRune_iff d).mp hlow
  have h1 : d ≠ '2' := by
    rintro rfl
    exact absurd hda.1 (by decide)
  unfold datePattern
  rw [hd]
  split
  · rename_i heq
    simp only [List.cons.injEq] at heq
    rw [← heq.1]
    simp [h1]
  · rfl

theorem not_marker_of_digitRun (r : String) (h : isDigitRun r = true) :
    ¬ (r = "_" ∨ r = "-") := by
  rintro (rfl | rfl) <;> exact absurd h (by decide)

theorem not_marker_of_letterRun (r : String) (h : isLetterRun r = true) :
    ¬ (r = "_" ∨ r = "-") := by
  rintro (rfl | rfl) <;> exact absurd h (by decide)

theorem keywordTable_keys : ∀ p ∈ keywordTable, isLetterRun p.1 = true := by decide

theorem keywordTable_values : ∀ p ∈ keywordTable, isLetterRun p.2 = true := by decide

theorem keyword_digitRun (r : String) (h : isDigitRun r = true) : keyword r = none := by
  unfold keyword
  rw [List.lookup_eq_none_iff]
  intro p hp
  have hk := keywordTable_keys p hp
  simp only [bne_iff_ne, ne_eq]
  intro heq
  rw [← heq, not_letterRun_of_digitRun r h] at hk
  exact absurd hk (by simp)

theorem aliasOf_digitRun (r : String) (h : isDigitRun r = true) : aliasOf r = r := by
  unfold aliasOf
  rw [keyword_digitRun r h]

theorem addParsed_nil (v : Version) : addParsed v [] [] = v := by
  simp [addParsed]

theorem addParsed_addParsed (v : Version) (r1 r2 : List Int) (p1 p2 : List Pre) :
    addParsed (addParsed v r1 p1) r2 p2 = addParsed v (r1 ++ r2) (p1 ++ p2) := by
  simp [addParsed]

theorem parseTokens_nil (f : Bool) (v : Version) : parseTokens [] f v = v := by
  rw [parseTokens]

theorem parseTokens_date (part : String) (rest : List String) (f : Bool) (v : Version)
    (hm : ¬ (part = "_" ∨ part = "-")) (hd : datePattern part = true) :
    parseTokens (part :: rest) f v =
      parseTokens rest false
        { v with date := part ++ repeatZero (14 - (part.length : Int)) } := by
  rw [parseTokens, if_neg hm, if_pos hd]

theorem parseTokens_release (part : String) (rest : List String) (v : Version)
    (hm : ¬ (part = "_" ∨ part = "-")) (hd : datePattern part = false)
    (hok : (Atoi part).2 = true) :
    parseTokens (part :: rest) true v =
      parseTokens rest true (addParsed v [(Atoi part).1] []) := by
  rw [parseTokens, if_neg hm, if_neg (by simp [hd]), if_pos ⟨rfl, hok⟩]
  simp [addParsed]

theorem parseTokens_pre (part : String) (rest : List String) (f : Bool) (v : Version)
    (hm : ¬ (part = "_" ∨ part = "-")) (hd : datePattern part = false)
    (hno : ¬ (f = true ∧ (Atoi part).2 = true)) :
    parseTokens (part :: rest) f v =
      parseTokens (if (lookahead (aliasOf part) rest).2 = true then rest.tail else rest) false
        (addParsed v [] [⟨aliasOf part, (lookahead (aliasOf part) rest).1⟩]) := by
  rw [parseTokens, if_neg hm, if_neg (by simp [hd]), if_neg hno]
  simp [addParsed]

/-- On a token list that starts with a date or a non-number, the release flag
plays no part. -/
theorem parseTokens_plainHead (tail : List String) (f : Bool) (v : Version)
    (h : plainHead tail) : parseTokens tail f v = parseTokens tail false v := by
  cases tail with
  | nil => rw [parseTokens_nil, parseTokens_nil]
  | cons x t =>
    by_cases hm : x = "_" ∨ x = "-"
    · rw [parseTokens, if_pos hm, parseTokens, if_pos hm]
    · rw [parseTokens, if_neg hm, parseTokens, if_neg hm]
      by_cases hd : datePattern x = true
      · rw [if_pos hd, if_pos hd]
      · rw [if_neg hd, if_neg hd]
        have hx : Atoi x = (0, false) := (h x rfl).resolve_left hd
        have hno : ∀ g : Bool, ¬ (g = true ∧ (Atoi x).2 = true) := by simp [hx]
        rw [if_neg (hno f), if_neg (hno false)]

/-- Digit runs that fit a machine `int` and are not date-shaped, read while the
release flag is set, are appended to the release list. -/
theorem parseTokens_fitting_runs :
    ∀ (runs : List String),
      (∀ r ∈ runs, isDigitRun r = true ∧ datePattern r = false ∧ fitsInt r = true) →
      ∀ (tail : List String) (v : Version),
        parseTokens (runs ++ tail) true v =
          parseTokens tail true
            (addParsed v (runs.map (fun r => (digitsValue r.data : Int))) []) := by
  intro runs
  induction runs with
  | nil => intro _ tail v; simp [addParsed_nil]
  | cons r rs ih =>
    intro hruns tail v
    obtain ⟨h1, h2, h3⟩ := hruns r (List.mem_cons_self _ _)
    have hA : Atoi r = ((digitsValue r.data : Int), true) := by
      rw [Atoi_digitRun r h1, if_pos h3]
    rw [List.cons_append, parseTokens_release r _ v (not_marker_of_digitRun r h1) h2
      (by rw [hA]), ih (fun x hx => hruns x (List.mem_cons_of_mem _ hx)), addParsed_addParsed, hA]
    simp


theorem lookahead_of_ok (part : String) (rest : List String) (h : (Atoi part).2 = true) :
    lookahead part rest = (0, false) := by
  unfold lookahead
  rw [if_neg (by simp [h])]

theorem lookahead_plainHead (part : String) (tail : List String) (h : plainHead tail) :
    lookahead part tail = (0, false) := by
  unfold lookahead
  by_cases h1 : ¬ (Atoi part).2 = true
  · rw [if_pos h1]
    cases tail with
    | nil => rfl
    | cons x t =>
      simp only []
      by_cases hd : datePattern x = true
      · rw [if_neg (not_not.mpr hd)]
      · rw [if_pos hd, (h x rfl).resolve_left hd]
  · rw [if_neg h1]

theorem lookahead_cons (part next : String) (rest : List String)
    (h : (Atoi part).2 = false) (hd : datePattern next = false) :
    lookahead part (next :: rest) = ((Atoi next).1, (Atoi next).2) := by
  unfold lookahead
  rw [if_pos (by simp [h])]
  simp only []
  rw [if_pos (by simp [hd])]

/-- Digit runs that are not date-shaped are read in the same way whatever
follows them, as long as what follows starts with a date or a non-number (or is
empty): they contribute fixed lists `R` and `P` to the release and qualifier
lists. -/
theorem parseTokens_runs :
    ∀ (n : Nat) (runs : List String), runs.length ≤ n →
      (∀ r ∈ runs, isDigitRun r = true ∧ datePattern r = false) →
      ∀ f : Bool, ∃ (R : List Int) (P : List Pre), ∀ (tail : List String) (v : Version),
        plainHead tail →
          parseTokens (runs ++ tail) f v = parseTokens tail false (addParsed v R P) := by
  intro n
  induction n with
  | zero =>
    intro runs hlen _ f
    have : runs = [] := List.length_eq_zero.mp (by omega)
    subst this
    refine ⟨[], [], fun tail v ht => ?_⟩
    rw [List.nil_append, addParsed_nil, parseTokens_plainHead tail f v ht]
  | succ n ih =>
    intro runs hlen hruns f
    cases runs with
    | nil =>
      refine ⟨[], [], fun tail v ht => ?_⟩
      rw [List.nil_append, addParsed_nil, parseTokens_plainHead tail f v ht]
    | cons r rs =>
      obtain ⟨hr1, hr2⟩ := hruns r (List.mem_cons_self _ _)
      have hrs : ∀ x ∈ rs, isDigitRun x = true ∧ datePattern x = false :=
        fun x hx => hruns x (List.mem_cons_of_mem _ hx)
      have hlen' : rs.length ≤ n := by simp only [List.length_cons] at hlen; omega
      have hmk := not_marker_of_digitRun r hr1
      by_cases hfit : fitsInt r = true
      · have hA : Atoi r = ((digitsValue r.data : Int), true) := by
          rw [Atoi_digitRun r hr1, if_pos hfit]
        cases f with
        | true =>
          obtain ⟨R, P, hRP⟩ := ih rs hlen' hrs true
          refine ⟨(digitsValue r.data : Int) :: R, P, fun tail v ht => ?_⟩
          rw [List.cons_append, parseTokens_release r _ v hmk hr2 (by rw [hA]), hRP tail _ ht,
            addParsed_addParsed, hA]
          simp
        | false =>
          obtain ⟨R, P, hRP⟩ := ih rs hlen' hrs false
          refine ⟨R, ⟨r, 0⟩ :: P, fun tail v ht => ?_⟩
          rw [List.cons_append, parseTokens_pre r _ false v hmk hr2 (by simp),
            aliasOf_digitRun r hr1, lookahead_of_ok r _ (by rw [hA])]
          simp only [Bool.false_eq_true, if_false]
          rw [hRP tail _ ht, addParsed_addParsed]
          simp
      · have hA : Atoi r = ((2 ^ (intSize - 1) - 1 : Int), false) := by
          rw [Atoi_digitRun r hr1, if_neg hfit]
        have hno : ¬ (f = true ∧ (Atoi r).2 = true) := by simp [hA]
        cases rs with
        | nil =>
          refine ⟨[], [⟨r, 0⟩], fun tail v ht => ?_⟩
          rw [List.cons_append, List.nil_append, parseTokens_pre r _ f v hmk hr2 hno,
            aliasOf_digitRun r hr1, lookahead_plainHead r tail ht]
          simp only [Bool.false_eq_true, if_false]
        | cons r2 rs' =>
          obtain ⟨h21, h22⟩ := hrs r2 (List.mem_cons_self _ _)
          have hla : ∀ tail : List String,
              lookahead r (r2 :: (rs' ++ tail)) = ((Atoi r2).1, (Atoi r2).2) :=
            fun tail => lookahead_cons r r2 _ (by rw [hA]) h22
          by_cases hfit2 : fitsInt r2 = true
          · have hA2 : Atoi r2 = ((digitsValue r2.data : Int), true) := by
              rw [Atoi_digitRun r2 h21, if_pos hfit2]
            obtain ⟨R, P, hRP⟩ := ih rs'
              (by simp only [List.length_cons] at hlen'; omega)
              (fun x hx => hrs x (List.mem_cons_of_mem _ hx)) false
            refine ⟨R, ⟨r, (digitsValue r2.data : Int)⟩ :: P, fun tail v ht => ?_⟩
            rw [List.cons_append, List.cons_append, parseTokens_pre r _ f v hmk hr2 hno,
              aliasOf_digitRun r hr1, hla tail, hA2]
            simp only [if_true, List.tail_cons]
            rw [hRP tail _ ht, addParsed_addParsed]
            simp
          · have hA2 : Atoi r2 = ((2 ^ (intSize - 1) - 1 : Int), false) := by
              rw [Atoi_digitRun r2 h21, if_neg hfit2]
            obtain ⟨R, P, hRP⟩ := ih (r2 :: rs') hlen' hrs false
            refine ⟨R, ⟨r, (2 ^ (intSize - 1) - 1 : Int)⟩ :: P, fun tail v ht => ?_⟩
            rw [List.cons_append, List.cons_append, parseTokens_pre r _ f v hmk hr2 hno,
              aliasOf_digitRun r hr1, hla tail, hA2]
            simp only [Bool.false_eq_true, if_false]
            rw [← List.cons_append, hRP tail _ ht, addParsed_addParsed]
            simp


/-! ## `Parse` in terms of the structural views -/

theorem Parse_eq (s : String) :
    Parse s =
      { parseTokens (splitVersionParts (ToLower s)) true ⟨s, [], "", []⟩ with
        release := dropTrailingZeros
          (parseTokens (splitVersionParts (ToLower s)) true ⟨s, [], "", []⟩).release } := by
  unfold Parse parseVersion
  simp only []
  rw [parseLoop_eq_parseTokens _ _ 0 _ _ (by omega), trimRelease_eq]
  rfl

/-- The parsed fields do not depend on the text stored in `Version`. -/
theorem parseTokens_text (x y : String) :
    ∀ (n : Nat) (toks : List String), toks.length ≤ n →
      ∀ (f : Bool) (r : List Int) (d : String) (p : List Pre),
        parseTokens toks f ⟨x, r, d, p⟩
          = ⟨x, (parseTokens toks f ⟨y, r, d, p⟩).release,
              (parseTokens toks f ⟨y, r, d, p⟩).date,
              (parseTokens toks f ⟨y, r, d, p⟩).prelist⟩ := by
  intro n
  induction n with
  | zero =>
    intro toks hlen f r d p
    have : toks = [] := List.length_eq_zero.mp (by omega)
    subst this
    rw [parseTokens_nil, parseTokens_nil]
  | succ n ih =>
    intro toks hlen f r d p
    cases toks with
    | nil => rw [parseTokens_nil, parseTokens_nil]
    | cons part rest =>
      have hrest : rest.length ≤ n := by simp only [List.length_cons] at hlen; omega
      have htail : rest.tail.length ≤ n := by rw [List.length_tail]; omega
      rw [parseTokens, parseTokens]
      simp only []
      split_ifs
      · exact ih rest hrest _ _ _ _
      · exact ih rest hrest _ _ _ _
      · exact ih rest hrest _ _ _ _
      · exact ih rest.tail htail _ _ _ _
      · exact ih rest hrest _ _ _ _

/-- The release, date and qualifier lists of `Parse s`, from any token list that
`splitVersionParts` is known to return. -/
theorem Parse_fields (s : String) (toks : List String)
    (htoks : splitVersionParts (ToLower s) = toks) :
    (Parse s).release = dropTrailingZeros (parseTokens toks true ⟨"", [], "", []⟩).release ∧
    (Parse s).date = (parseTokens toks true ⟨"", [], "", []⟩).date ∧
    (Parse s).prelist = (parseTokens toks true ⟨"", [], "", []⟩).prelist := by
  rw [Parse_eq, htoks, parseTokens_text s "" toks.length toks le_rfl true [] "" []]
  exact ⟨rfl, rfl, rfl⟩

/-! ## `Compare` on records with related fields -/

theorem lexCompare_self (a : List Int) : lexCompare a a = 0 :=
  (lexCompare_eq_zero a a).mpr rfl

theorem preScan_append_left : ∀ (p a b : List Pre), preScan (p ++ a) (p ++ b) = preScan a b
  | [], a, b => rfl
  | x :: xs, a, b => by
    rw [List.cons_append, List.cons_append, preScan, if_neg (by simp [comparePre_self])]
    exact preScan_append_left xs a b

theorem preScan_self (p : List Pre) : preScan p p = none := by
  have h := preScan_append_left p [] []
  simp only [List.append_nil] at h
  rw [h, preScan]

/-- `Compare` of two records with equal release lists and no dates is decided by
the qualifier lists. -/
theorem Compare_same_release_no_date (a b : Version) (hr : a.release = b.release)
    (hda : a.date = "") :
    Compare a b = (preScan a.prelist b.prelist).getD 0 := by
  rw [Compare_eq_tiers, hr, lexCompare_self, hda]
  simp

/-- `Compare` of two records with equal release, date and qualifier lists is 0. -/
theorem Compare_same_fields (a b : Version) (hr : a.release = b.release)
    (hd : a.date = b.date) (hp : a.prelist = b.prelist) : Compare a b = 0 := by
  rw [Compare_eq_tiers, hr, lexCompare_self, hd, hp, preScan_self]
  simp


/-! ## Tokens of the strings the claims are about -/

theorem separator_facts (sep : String) (h : sep ∈ [".", "-", "_"]) :
    ∃ c, sep.data = [c] ∧ isDigitRune c = false ∧ isLowerRune c = false ∧
      toLowerRune c = c := by
  simp only [List.mem_cons, List.mem_singleton, List.not_mem_nil, or_false] at h
  rcases h with rfl | rfl | rfl
  · exact ⟨'.', rfl, by decide, by decide, by decide⟩
  · exact ⟨'-', rfl, by decide, by decide, by decide⟩
  · exact ⟨'_', rfl, by decide, by decide, by decide⟩

/-- Tokens of digit runs joined by `.`, `-` or `_` and followed by `tail`. -/
theorem tokens_joinWith_append (sep : String) (hsep : sep ∈ [".", "-", "_"])
    (runs : List String) (hne : runs ≠ []) (hruns : ∀ r ∈ runs, isDigitRun r = true)
    (tail : String) (hlow : ∀ c ∈ tail.data, toLowerRune c = c)
    (hhead : ∀ x, tail.data.head? = some x → isDigitRune x = false) :
    splitVersionParts (ToLower (joinWith sep runs ++ tail)) = runs ++ splitVersionParts tail := by
  obtain ⟨c, hc, hd, hl, hfix⟩ := separator_facts sep hsep
  have hsepfix : ∀ x ∈ sep.data, toLowerRune x = x := by
    intro x hx
    rw [hc, List.mem_singleton] at hx
    rw [hx]
    exact hfix
  rw [ToLower_eq_self _ (lowerFixed_append _ _ (lowerFixed_joinWith sep hsepfix runs hruns) hlow)]
  exact split_joinWith sep c hc hd hl runs hne hruns tail hhead

/-- Tokens of digit runs joined by `.`, `-` or `_`. -/
theorem tokens_joinWith (sep : String) (hsep : sep ∈ [".", "-", "_"])
    (runs : List String) (hne : runs ≠ []) (hruns : ∀ r ∈ runs, isDigitRun r = true) :
    splitVersionParts (ToLower (joinWith sep runs)) = runs := by
  have h := tokens_joinWith_append sep hsep runs hne hruns "" (by simp) (by simp)
  rw [String.append_empty, split_empty, List.append_nil] at h
  exact h

/-- C9: for every non-empty list of digit runs, the strings obtained by joining
the runs with ".", with "-" and with "_" parse to versions that `Compare` as 0
with one another.  (The runs need not be restricted to non-date runs that fit a
machine `int`: the three strings have the same tokens.) -/
theorem C9_separator_insensitive (runs : List String) (hne : runs ≠ [])
    (hruns : ∀ r ∈ runs, isDigitRun r = true)
    (sep1 sep2 : String) (h1 : sep1 ∈ [".", "-", "_"]) (h2 : sep2 ∈ [".", "-", "_"]) :
    Compare (Parse (joinWith sep1 runs)) (Parse (joinWith sep2 runs)) = 0 := by
  obtain ⟨a1, a2, a3⟩ := Parse_fields _ runs (tokens_joinWith sep1 h1 runs hne hruns)
  obtain ⟨b1, b2, b3⟩ := Parse_fields _ runs (tokens_joinWith sep2 h2 runs hne hruns)
  exact Compare_same_fields _ _ (a1.trans b1.symm) (a2.trans b2.symm) (a3.trans b3.symm)

/-- Witness of C9: "1.2.3" against "1-2-3". -/
theorem C9_separator_insensitive_witness :
    Compare (Parse "1.2.3") (Parse "1-2-3") = 0 :=
  C9_separator_insensitive ["1", "2", "3"] (by decide) (by decide) "." "-"
    (by decide) (by decide)


/-- The parse of digit runs that fit a machine `int` and are not date-shaped. -/
theorem parseTokens_fitting_only (runs : List String)
    (hruns : ∀ r ∈ runs, isDigitRun r = true ∧ datePattern r = false ∧ fitsInt r = true) :
    parseTokens runs true ⟨"", [], "", []⟩
      = ⟨"", runs.map (fun r => (digitsValue r.data : Int)), "", []⟩ := by
  have h := parseTokens_fitting_runs runs hruns [] ⟨"", [], "", []⟩
  rw [List.append_nil, parseTokens_nil] at h
  rw [h]
  simp [addParsed]

/-- C6: for every string `s` of one or more digit runs separated by "." (no run
date-shaped, each fitting a machine `int`), `Parse s` and `Parse (s ++ ".0")`
have the same release list and `Compare` as 0. -/
theorem C6_trailing_zero_component (runs : List String) (hne : runs ≠ [])
    (hruns : ∀ r ∈ runs, isDigitRun r = true ∧ datePattern r = false ∧ fitsInt r = true) :
    (Parse (joinWith "." runs)).release = (Parse (joinWith "." runs ++ ".0")).release ∧
    Compare (Parse (joinWith "." runs)) (Parse (joinWith "." runs ++ ".0")) = 0 := by
  have hdig : ∀ r ∈ runs, isDigitRun r = true := fun r hr => (hruns r hr).1
  obtain ⟨a1, a2, a3⟩ :=
    Parse_fields _ runs (tokens_joinWith "." (by decide) runs hne hdig)
  have htok : splitVersionParts (ToLower (joinWith "." runs ++ ".0")) = runs ++ ["0"] := by
    rw [tokens_joinWith_append "." (by decide) runs hne hdig ".0" (by decide) (by decide)]
    rfl
  obtain ⟨b1, b2, b3⟩ := Parse_fields _ (runs ++ ["0"]) htok
  have hzero : parseTokens ["0"] true
      (addParsed ⟨"", [], "", []⟩ (runs.map (fun r => (digitsValue r.data : Int))) [])
      = ⟨"", runs.map (fun r => (digitsValue r.data : Int)) ++ [0], "", []⟩ := by
    rw [parseTokens_release "0" [] _ (by decide) (by decide) (by decide), parseTokens_nil,
      addParsed_addParsed]
    have : (Atoi "0").1 = 0 := by decide
    rw [this]
    simp [addParsed]
  rw [parseTokens_fitting_only runs hruns] at a1 a2 a3
  rw [parseTokens_fitting_runs runs hruns, hzero] at b1 b2 b3
  simp only [] at a1 a2 a3 b1 b2 b3
  rw [dropTrailingZeros_append_zero] at b1
  have hrel := a1.trans b1.symm
  exact ⟨hrel, Compare_same_fields _ _ hrel (a2.trans b2.symm) (a3.trans b3.symm)⟩

/-- Witness of C6: "1.0" against "1.0.0". -/
theorem C6_trailing_zero_component_witness :
    (Parse "1.0").release = (Parse "1.0.0").release ∧
    Compare (Parse "1.0") (Parse "1.0.0") = 0 :=
  C6_trailing_zero_component ["1", "0"] (by decide) (by decide)

/-! ## Versions with one qualifier after the release numbers -/

theorem aliasOf_letterRun (q : String) (hq : isLetterRun q = true) :
    isLetterRun (aliasOf q) = true := by
  unfold aliasOf
  cases h : keyword q with
  | none => exact hq
  | some c =>
    unfold keyword at h
    obtain ⟨l1, l2, hl, -⟩ := List.lookup_eq_some_iff.mp h
    exact keywordTable_values (q, c) (by rw [hl]; simp)

theorem split_number (n : String) (hn : n = "" ∨ isDigitRun n = true) :
    splitVersionParts n = if n = "" then [] else [n] := by
  rcases hn with rfl | hn
  · rfl
  · have hne : n ≠ "" := by
      rintro rfl
      exact absurd hn (by decide)
    rw [if_neg hne]
    have h := split_digitRun_append n "" hn (by simp)
    rw [String.append_empty, split_empty] at h
    exact h

theorem number_head_not_lower (n : String) (hn : n = "" ∨ isDigitRun n = true) :
    ∀ c, n.data.head? = some c → isLowerRune c = false := by
  intro c hc
  rcases hn with rfl | hn
  · simp at hc
  · obtain ⟨d, ds, hd, hdig, -⟩ := digitRun_data n hn
    rw [hd] at hc
    simp only [List.head?_cons, Option.some.injEq] at hc
    rw [← hc]
    exact not_lower_of_digit d hdig

theorem number_lowerFixed (n : String) (hn : n = "" ∨ isDigitRun n = true) :
    ∀ c ∈ n.data, toLowerRune c = c := by
  rcases hn with rfl | hn
  · intro c hc; simp at hc
  · exact ToLower_digitRun n hn

/-- Tokens of `s-qn`: the runs of `s`, then the qualifier `q`, then the number
`n` if it is written. -/
theorem tokens_qualified (runs : List String) (hne : runs ≠ [])
    (hruns : ∀ r ∈ runs, isDigitRun r = true) (q n : String) (hq : isLetterRun q = true)
    (hn : n = "" ∨ isDigitRun n = true) :
    splitVersionParts (ToLower (joinWith "." runs ++ "-" ++ q ++ n))
      = runs ++ q :: (if n = "" then [] else [n]) := by
  rw [String.append_assoc, String.append_assoc,
    tokens_joinWith_append "." (by decide) runs hne hruns ("-" ++ (q ++ n))
      (lowerFixed_append _ _ (by decide)
        (lowerFixed_append _ _ (ToLower_letterRun q hq) (number_lowerFixed n hn)))
      (by intro x hx; rw [String.data_append] at hx
          simp only [show ("-" : String).data = ['-'] from rfl, List.singleton_append,
            List.head?_cons, Option.some.injEq] at hx
          rw [← hx]; decide),
    split_sep_append "-" _ '-' rfl (by decide) (by decide),
    split_letterRun_append q n hq (number_head_not_lower n hn), split_number n hn]

/-- The parse of a qualifier token followed by its number, if written. -/
theorem parseTokens_qualifier (q n : String) (hq : isLetterRun q = true)
    (hn : isNumberSuffix n) (v : Version) :
    parseTokens (q :: (if n = "" then [] else [n])) false v
      = addParsed v [] [⟨aliasOf q, (digitsValue n.data : Int)⟩] := by
  have hA : (Atoi (aliasOf q)).2 = false := by
    rw [Atoi_letterRun _ (aliasOf_letterRun q hq)]
  rw [parseTokens_pre q _ false v (not_marker_of_letterRun q hq) (datePattern_letterRun q hq)
    (by simp)]
  rcases hn with rfl | ⟨h1, h2, h3⟩
  · rw [if_pos rfl, lookahead_plainHead _ [] (by intro h hh; simp at hh)]
    simp only [Bool.false_eq_true, if_false]
    rw [parseTokens_nil]
    rfl
  · have hne : n ≠ "" := by
      rintro rfl
      exact absurd h1 (by decide)
    rw [if_neg hne, lookahead_cons _ n [] hA h2, Atoi_digitRun n h1, if_pos h3]
    simp only [if_true, List.tail_cons]
    rw [parseTokens_nil]

/-- The parse of a qualifier token followed by a number too large for a machine
`int`: the number is left in place and becomes a qualifier of its own. -/
theorem parseTokens_qualifier_big (q n : String) (hq : isLetterRun q = true)
    (h1 : isDigitRun n = true) (h2 : datePattern n = false) (h3 : fitsInt n = false)
    (v : Version) :
    parseTokens [q, n] false v
      = addParsed v [] [⟨aliasOf q, (2 ^ (intSize - 1) - 1 : Int)⟩, ⟨n, 0⟩] := by
  have hA : (Atoi (aliasOf q)).2 = false := by
    rw [Atoi_letterRun _ (aliasOf_letterRun q hq)]
  have hN : Atoi n = ((2 ^ (intSize - 1) - 1 : Int), false) := by
    rw [Atoi_digitRun n h1, if_neg (by simp [h3])]
  rw [parseTokens_pre q _ false v (not_marker_of_letterRun q hq) (datePattern_letterRun q hq)
    (by simp), lookahead_cons _ n [] hA h2, hN]
  simp only [Bool.false_eq_true, if_false]
  rw [parseTokens_pre n _ false _ (not_marker_of_digitRun n h1) h2 (by simp),
    aliasOf_digitRun n h1, lookahead_plainHead _ [] (by intro h hh; simp at hh)]
  simp only [Bool.false_eq_true, if_false]
  rw [parseTokens_nil, addParsed_addParsed]
  rfl


theorem isDigitRune_of_range (c lo hi : Char) (hlo : '0' ≤ lo) (hhi : hi ≤ '9')
    (h : lo ≤ c ∧ c ≤ hi) : isDigitRune c = true :=
  (isDigitRune_iff c).mpr ⟨le_trans hlo h.1, le_trans h.2 hhi⟩

/-- A date-shaped token is a digit run. -/
theorem datePattern_digitRun (d : String) (h : datePattern d = true) :
    isDigitRun d = true := by
  unfold datePattern at h
  split at h
  · rename_i c1 c2 y3 y4 m1 m2 d1 d2 rest heq
    simp only [Bool.and_eq_true, Bool.or_eq_true, decide_eq_true_eq, List.all_eq_true] at h
    obtain ⟨⟨⟨⟨⟨⟨⟨h1, h2⟩, h3⟩, h4⟩, h5⟩, h6⟩, h7⟩, -⟩ := h
    have e1 : isDigitRune c1 = true := by rw [h1]; decide
    have e2 : isDigitRune c2 = true := by rw [h2]; decide
    have e3 : isDigitRune y3 = true := by
      rcases h3 with h | h <;> rw [h] <;> decide
    have e5 : isDigitRune m1 = true := by
      rcases h5 with ⟨h, -⟩ | ⟨h, -⟩ <;> rw [h] <;> decide
    have e6 : isDigitRune m2 = true := by
      rcases h5 with ⟨-, h⟩ | ⟨-, h⟩
      · exact isDigitRune_of_range m2 '1' '9' (by decide) (by decide) h
      · rcases h with (h | h) | h <;> rw [h] <;> decide
    have e7 : isDigitRune d1 = true := by
      rcases h6 with (⟨h, -⟩ | ⟨h, -⟩) | ⟨h, -⟩
      · rw [h]; decide
      · rcases h with h | h <;> rw [h] <;> decide
      · rw [h]; decide
    have e8 : isDigitRune d2 = true := by
      rcases h6 with (⟨-, h⟩ | ⟨-, h⟩) | ⟨-, h⟩
      · exact isDigitRune_of_range d2 '1' '9' (by decide) (by decide) h
      · exact h
      · rcases h with h | h <;> rw [h] <;> decide
    simp only [isDigitRun, heq, List.isEmpty_cons, Bool.not_false, Bool.true_and,
      List.all_cons, e1, e2, e3, h4, e5, e6, e7, e8, List.all_eq_true]
    exact h7
  · exact absurd h (by simp)


theorem plainHead_nil : plainHead [] := by
  intro h hh
  simp at hh

theorem plainHead_letterRun (q : String) (rest : List String) (hq : isLetterRun q = true) :
    plainHead (q :: rest) := by
  intro h hh
  simp only [List.head?_cons, Option.some.injEq] at hh
  rw [← hh]
  exact Or.inr (Atoi_letterRun q hq)

theorem plainHead_date (d : String) (rest : List String) (hd : datePattern d = true) :
    plainHead (d :: rest) := by
  intro h hh
  simp only [List.head?_cons, Option.some.injEq] at hh
  rw [← hh]
  exact Or.inl hd

/-- Tokens of `s.d` for a date-shaped `d`. -/
theorem tokens_dated (runs : List String) (hne : runs ≠ [])
    (hruns : ∀ r ∈ runs, isDigitRun r = true) (d : String) (hd : datePattern d = true) :
    splitVersionParts (ToLower (joinWith "." runs ++ "." ++ d)) = runs ++ [d] := by
  have hdr := datePattern_digitRun d hd
  rw [String.append_assoc,
    tokens_joinWith_append "." (by decide) runs hne hruns ("." ++ d)
      (lowerFixed_append _ _ (by decide) (ToLower_digitRun d hdr))
      (by intro x hx; rw [String.data_append] at hx
          simp only [show (".": String).data = ['.'] from rfl, List.singleton_append,
            List.head?_cons, Option.some.injEq] at hx
          rw [← hx]; decide),
    split_sep_append "." _ '.' rfl (by decide) (by decide),
    split_number d (Or.inr hdr)]
  have hne' : d ≠ "" := by
    rintro rfl
    exact absurd hdr (by decide)
  rw [if_neg hne']

/-- What `Parse` returns on a string `s` of "."-separated digit runs, none of
them date-shaped, and on `s` followed by a qualifier or by a date: the runs of
`s` contribute the same lists `R` and `P` in every case. -/
theorem Parse_runs (runs : List String) (hne : runs ≠ [])
    (hruns : ∀ r ∈ runs, isDigitRun r = true ∧ datePattern r = false) :
    ∃ (R : List Int) (P : List Pre),
      ((Parse (joinWith "." runs)).release = dropTrailingZeros R ∧
        (Parse (joinWith "." runs)).date = "" ∧
        (Parse (joinWith "." runs)).prelist = P) ∧
      (∀ q n : String, isLetterRun q = true → isNumberSuffix n →
        (Parse (joinWith "." runs ++ "-" ++ q ++ n)).release = dropTrailingZeros R ∧
        (Parse (joinWith "." runs ++ "-" ++ q ++ n)).date = "" ∧
        (Parse (joinWith "." runs ++ "-" ++ q ++ n)).prelist
          = P ++ [⟨aliasOf q, (digitsValue n.data : Int)⟩]) ∧
      (∀ q n : String, isLetterRun q = true → isDigitRun n = true → datePattern n = false →
        fitsInt n = false →
        (Parse (joinWith "." runs ++ "-" ++ q ++ n)).release = dropTrailingZeros R ∧
        (Parse (joinWith "." runs ++ "-" ++ q ++ n)).date = "" ∧
        (Parse (joinWith "." runs ++ "-" ++ q ++ n)).prelist
          = P ++ [⟨aliasOf q, (2 ^ (intSize - 1) - 1 : Int)⟩, ⟨n, 0⟩]) ∧
      (∀ d : String, datePattern d = true →
        (Parse (joinWith "." runs ++ "." ++ d)).release = dropTrailingZeros R ∧
        (Parse (joinWith "." runs ++ "." ++ d)).date
          = d ++ repeatZero (14 - (d.length : Int)) ∧
        (Parse (joinWith "." runs ++ "." ++ d)).prelist = P) := by
  have hdig : ∀ r ∈ runs, isDigitRun r = true := fun r hr => (hruns r hr).1
  obtain ⟨R, P, hRP⟩ := parseTokens_runs runs.length runs le_rfl hruns true
  refine ⟨R, P, ?_, ?_, ?_, ?_⟩
  · obtain ⟨a1, a2, a3⟩ :=
      Parse_fields _ runs (tokens_joinWith "." (by decide) runs hne hdig)
    have h := hRP [] ⟨"", [], "", []⟩ plainHead_nil
    rw [List.append_nil, parseTokens_nil] at h
    rw [h] at a1 a2 a3
    simp only [addParsed, List.nil_append] at a1 a2 a3
    exact ⟨a1, a2, a3⟩
  · intro q n hq hn
    have hn' : n = "" ∨ isDigitRun n = true := hn.imp id (fun h => h.1)
    obtain ⟨a1, a2, a3⟩ := Parse_fields _ _ (tokens_qualified runs hne hdig q n hq hn')
    rw [hRP _ ⟨"", [], "", []⟩ (plainHead_letterRun q _ hq), parseTokens_qualifier q n hq hn,
      addParsed_addParsed] at a1 a2 a3
    simp only [addParsed, List.nil_append, List.append_nil] at a1 a2 a3
    exact ⟨a1, a2, a3⟩
  · intro q n hq h1 h2 h3
    have hne' : n ≠ "" := by
      rintro rfl
      exact absurd h1 (by decide)
    have htok := tokens_qualified runs hne hdig q n hq (Or.inr h1)
    rw [if_neg hne'] at htok
    obtain ⟨a1, a2, a3⟩ := Parse_fields _ _ htok
    rw [hRP _ ⟨"", [], "", []⟩ (plainHead_letterRun q _ hq),
      parseTokens_qualifier_big q n hq h1 h2 h3, addParsed_addParsed] at a1 a2 a3
    simp only [addParsed, List.nil_append, List.append_nil] at a1 a2 a3
    exact ⟨a1, a2, a3⟩
  · intro d hd
    obtain ⟨a1, a2, a3⟩ := Parse_fields _ _ (tokens_dated runs hne hdig d hd)
    rw [hRP _ ⟨"", [], "", []⟩ (plainHead_date d _ hd),
      parseTokens_date d [] false _ (not_marker_of_digitRun d (datePattern_digitRun d hd)) hd,
      parseTokens_nil] at a1 a2 a3
    simp only [addParsed, List.nil_append] at a1 a2 a3
    exact ⟨a1, a2, a3⟩


/-! ## Claims about qualifiers -/

theorem keyword_mem (q c : String) (h : keyword q = some c) : (q, c) ∈ keywordTable := by
  unfold keyword at h
  obtain ⟨l1, l2, hl, -⟩ := List.lookup_eq_some_iff.mp h
  rw [hl]
  simp

theorem aliasOf_of_keyword (q c : String) (h : keyword q = some c) : aliasOf q = c := by
  unfold aliasOf
  rw [h]

theorem keywordTable_weights :
    ∀ p ∈ keywordTable, weights p.2 ≠ "" ∧ aliasOf p.2 = p.2 ∧
      (p.2 ≠ "release" → weights "release" > weights p.2) := by
  decide!

theorem comparePre_of_weight_gt (p q : Pre) (hp : weights p.Letter ≠ "")
    (hq : weights q.Letter ≠ "") (h : weights p.Letter > weights q.Letter) :
    comparePre p q = 1 := by
  rw [comparePre_listed p q hp hq]
  simp [h]

theorem preScan_nil_cons (y : Pre) (ys : List Pre)
    (h : comparePre ⟨"release", 0⟩ y ≠ 0) :
    (preScan [] (y :: ys)).getD 0 = comparePre ⟨"release", 0⟩ y := by
  rw [preScan, if_pos h]
  rfl

theorem preScan_nil_singleton (y : Pre) :
    (preScan [] [y]).getD 0 = comparePre ⟨"release", 0⟩ y := by
  by_cases h : comparePre ⟨"release", 0⟩ y ≠ 0
  · exact preScan_nil_cons y [] h
  · rw [preScan, if_neg h, preScan]
    simp only [ne_eq, not_not] at h
    rw [h]
    rfl

theorem preScan_singletons (x y : Pre) :
    (preScan [x] [y]).getD 0 = comparePre x y := by
  by_cases h : comparePre x y ≠ 0
  · rw [preScan, if_pos h]
    rfl
  · rw [preScan, if_neg h, preScan]
    simp only [ne_eq, not_not] at h
    rw [h]
    rfl

theorem preScan_prefix_left (p b : List Pre) : preScan p (p ++ b) = preScan [] b := by
  have h := preScan_append_left p [] b
  rw [List.append_nil] at h
  exact h

/-- C4: for every string `s` made only of "."-separated digit runs, none of them
date-shaped, and every spelling `q` of the alias table with canonical name `c`,
`Compare (Parse s) (Parse (s ++ "-" ++ q))` is 1 when `c` is not "release" and 0
when it is; the result stays 1 when a digit run `n` that is not date-shaped is
appended to a qualifier whose canonical name is not "release".  (The claim's
restriction to runs that fit a machine `int` is not needed.) -/
theorem C4_missing_qualifier_ranks_as_release (runs : List String) (hne : runs ≠ [])
    (hruns : ∀ r ∈ runs, isDigitRun r = true ∧ datePattern r = false)
    (q c : String) (hq : keyword q = some c) :
    Compare (Parse (joinWith "." runs)) (Parse (joinWith "." runs ++ "-" ++ q))
      = (if c = "release" then 0 else 1) ∧
    (c ≠ "release" → ∀ n : String, isDigitRun n = true → datePattern n = false →
      Compare (Parse (joinWith "." runs)) (Parse (joinWith "." runs ++ "-" ++ q ++ n)) = 1) := by
  obtain ⟨R, P, ⟨a1, a2, a3⟩, hqual, hbig, -⟩ := Parse_runs runs hne hruns
  have hmem := keyword_mem q c hq
  have hql : isLetterRun q = true := keywordTable_keys (q, c) hmem
  have hal := aliasOf_of_keyword q c hq
  obtain ⟨hw, -, hgt⟩ := keywordTable_weights (q, c) hmem
  simp only [] at hw hgt
  have hone : c ≠ "release" → ∀ x : Int, comparePre ⟨"release", 0⟩ ⟨c, x⟩ = 1 :=
    fun hc x => comparePre_of_weight_gt _ _ weights_release hw (hgt hc)
  constructor
  · obtain ⟨b1, b2, b3⟩ := hqual q "" hql (Or.inl rfl)
    rw [String.append_empty] at b1 b2 b3
    rw [Compare_same_release_no_date _ _ (a1.trans b1.symm) a2, a3, b3, preScan_prefix_left,
      preScan_nil_singleton, hal]
    by_cases hc : c = "release"
    · rw [if_pos hc, hc]
      exact comparePre_self _
    · rw [if_neg hc]
      exact hone hc _
  · intro hc n h1 h2
    by_cases h3 : fitsInt n = true
    · obtain ⟨b1, b2, b3⟩ := hqual q n hql (Or.inr ⟨h1, h2, h3⟩)
      rw [Compare_same_release_no_date _ _ (a1.trans b1.symm) a2, a3, b3, preScan_prefix_left,
        preScan_nil_singleton, hal]
      exact hone hc _
    · rw [Bool.not_eq_true] at h3
      obtain ⟨b1, b2, b3⟩ := hbig q n hql h1 h2 h3
      rw [Compare_same_release_no_date _ _ (a1.trans b1.symm) a2, a3, b3, preScan_prefix_left,
        hal, preScan_nil_cons _ _ (by rw [hone hc]; decide)]
      exact hone hc _

/-- Witness of C4: "1.0" against "1.0-alpha" and against "1.0-rc1". -/
theorem C4_missing_qualifier_ranks_as_release_witness :
    Compare (Parse "1.0") (Parse "1.0-alpha") = 1 ∧
    Compare (Parse "1.0") (Parse "1.0-rc1") = 1 :=
  ⟨(C4_missing_qualifier_ranks_as_release ["1", "0"] (by decide) (by decide)
      "alpha" "alpha" (by decide)).1,
    (C4_missing_qualifier_ranks_as_release ["1", "0"] (by decide) (by decide)
      "rc" "rc" (by decide)).2 (by decide) "1" (by decide) (by decide)⟩


theorem weightsTable_names :
    ∀ p ∈ weightsTable, isLetterRun p.1 = true ∧ aliasOf p.1 = p.1 ∧ weights p.1 ≠ "" := by
  decide

theorem weightsTable_order :
    ∀ p1 ∈ weightsTable, ∀ p2 ∈ weightsTable,
      (weights p1.1 > weights p2.1 ↔ rank p2.1 < rank p1.1) ∧
      (weights p1.1 < weights p2.1 ↔ rank p1.1 < rank p2.1) := by
  decide!

theorem mem_weightsTable (q : String) (h : q ∈ weightsTable.map Prod.fst) :
    ∃ p ∈ weightsTable, p.1 = q := by
  obtain ⟨p, hp, rfl⟩ := List.mem_map.mp h
  exact ⟨p, hp, rfl⟩

/-- On two names of the weight table `comparePre` is the lexicographic comparison
of (rank, number). -/
theorem comparePre_ranked (q1 q2 : String) (h1 : q1 ∈ weightsTable.map Prod.fst)
    (h2 : q2 ∈ weightsTable.map Prod.fst) (n1 n2 : Int) :
    comparePre ⟨q1, n1⟩ ⟨q2, n2⟩ = compareRankNumber (rank q1) n1 (rank q2) n2 := by
  obtain ⟨p1, hp1, rfl⟩ := mem_weightsTable q1 h1
  obtain ⟨p2, hp2, rfl⟩ := mem_weightsTable q2 h2
  obtain ⟨-, -, w1⟩ := weightsTable_names p1 hp1
  obtain ⟨-, -, w2⟩ := weightsTable_names p2 hp2
  obtain ⟨o1, o2⟩ := weightsTable_order p1 hp1 p2 hp2
  rw [comparePre_listed _ _ w1 w2]
  simp only []
  unfold compareRankNumber
  by_cases hgt : weights p1.1 > weights p2.1
  · have hr := o1.mp hgt
    have hr' : ¬ rank p1.1 < rank p2.1 := by omega
    simp [hgt, hr, hr']
  · have hr : ¬ rank p2.1 < rank p1.1 := fun h => hgt (o1.mpr h)
    by_cases hlt : weights p1.1 < weights p2.1
    · have hr2 := o2.mp hlt
      simp [hgt, hlt, hr2]
    · have hr2 : ¬ rank p1.1 < rank p2.1 := fun h => hlt (o2.mpr h)
      simp only [hgt, hlt, hr, hr2, if_false, ne_eq, not_true_eq_false]
      split_ifs <;> first | rfl | omega

/-- C5: for every string `s` made only of "."-separated digit runs, none of them
date-shaped, every two canonical names `q1`, `q2` of the weight table and every
two numbers `n1`, `n2` (digit runs that are not date-shaped and fit a machine
`int`, or omitted, meaning 0), `Compare (Parse (s-q1n1)) (Parse (s-q2n2))` is the
lexicographic comparison of `(rank q1, n1)` with `(rank q2, n2)`. -/
theorem C5_listed_qualifier_order (runs : List String) (hne : runs ≠ [])
    (hruns : ∀ r ∈ runs, isDigitRun r = true ∧ datePattern r = false)
    (q1 q2 : String) (h1 : q1 ∈ weightsTable.map Prod.fst)
    (h2 : q2 ∈ weightsTable.map Prod.fst)
    (n1 n2 : String) (hn1 : isNumberSuffix n1) (hn2 : isNumberSuffix n2) :
    Compare (Parse (joinWith "." runs ++ "-" ++ q1 ++ n1))
        (Parse (joinWith "." runs ++ "-" ++ q2 ++ n2))
      = compareRankNumber (rank q1) (digitsValue n1.data) (rank q2) (digitsValue n2.data) := by
  obtain ⟨R, P, -, hqual, -, -⟩ := Parse_runs runs hne hruns
  obtain ⟨p1, hp1, e1⟩ := mem_weightsTable q1 h1
  obtain ⟨p2, hp2, e2⟩ := mem_weightsTable q2 h2
  obtain ⟨l1, al1, -⟩ := weightsTable_names p1 hp1
  obtain ⟨l2, al2, -⟩ := weightsTable_names p2 hp2
  rw [e1] at l1 al1
  rw [e2] at l2 al2
  obtain ⟨a1, a2, a3⟩ := hqual q1 n1 l1 hn1
  obtain ⟨b1, b2, b3⟩ := hqual q2 n2 l2 hn2
  rw [Compare_same_release_no_date _ _ (a1.trans b1.symm) a2, a3, b3, preScan_append_left,
    preScan_singletons, al1, al2]
  exact comparePre_ranked q1 q2 h1 h2 _ _

/-- Witness of C5: "1.0-alpha" against "1.0-beta", and "1.0-rc1" against
"1.0-rc2". -/
theorem C5_listed_qualifier_order_witness :
    Compare (Parse "1.0-alpha") (Parse "1.0-beta") = -1 ∧
    Compare (Parse "1.0-rc1") (Parse "1.0-rc2") = -1 :=
  ⟨(C5_listed_qualifier_order ["1", "0"] (by decide) (by decide) "alpha" "beta"
      (by decide) (by decide) "" "" (Or.inl rfl) (Or.inl rfl)).trans (by decide),
    (C5_listed_qualifier_order ["1", "0"] (by decide) (by decide) "rc" "rc"
      (by decide) (by decide) "1" "2" (by decide) (by decide)).trans
      (by decide)⟩

/-- C8: for every key `k` of the alias table with canonical name `c`, every
string `s` made only of "."-separated digit runs, none of them date-shaped, and
every number `n` (a digit run that is not date-shaped and fits a machine `int`,
or omitted), `Parse (s-kn)` and `Parse (s-cn)` have the same release, date and
qualifier lists, and `Compare` of the two is 0. -/
theorem C8_alias_normalization (runs : List String) (hne : runs ≠ [])
    (hruns : ∀ r ∈ runs, isDigitRun r = true ∧ datePattern r = false)
    (k c : String) (hk : keyword k = some c) (n : String) (hn : isNumberSuffix n) :
    (Parse (joinWith "." runs ++ "-" ++ k ++ n)).release
      = (Parse (joinWith "." runs ++ "-" ++ c ++ n)).release ∧
    (Parse (joinWith "." runs ++ "-" ++ k ++ n)).date
      = (Parse (joinWith "." runs ++ "-" ++ c ++ n)).date ∧
    (Parse (joinWith "." runs ++ "-" ++ k ++ n)).prelist
      = (Parse (joinWith "." runs ++ "-" ++ c ++ n)).prelist ∧
    Compare (Parse (joinWith "." runs ++ "-" ++ k ++ n))
      (Parse (joinWith "." runs ++ "-" ++ c ++ n)) = 0 := by
  obtain ⟨R, P, -, hqual, -, -⟩ := Parse_runs runs hne hruns
  have hmem := keyword_mem k c hk
  obtain ⟨-, hcc, -⟩ := keywordTable_weights (k, c) hmem
  simp only [] at hcc
  obtain ⟨a1, a2, a3⟩ := hqual k n (keywordTable_keys (k, c) hmem) hn
  obtain ⟨b1, b2, b3⟩ := hqual c n (keywordTable_values (k, c) hmem) hn
  rw [aliasOf_of_keyword k c hk] at a3
  rw [hcc] at b3
  have e1 := a1.trans b1.symm
  have e2 := a2.trans b2.symm
  have e3 := a3.trans b3.symm
  exact ⟨e1, e2, e3, Compare_same_fields _ _ e1 e2 e3⟩

/-- Witness of C8: "1.0-a1" against "1.0-alpha1". -/
theorem C8_alias_normalization_witness :
    (Parse "1.0-a1").prelist = (Parse "1.0-alpha1").prelist ∧
    Compare (Parse "1.0-a1") (Parse "1.0-alpha1") = 0 :=
  have h := C8_alias_normalization ["1", "0"] (by decide) (by decide) "a" "alpha"
    (by decide) "1" (by decide)
  ⟨h.2.2.1, h.2.2.2⟩

/-! ## Claims about dates -/

theorem datePattern_length (d : String) (h : datePattern d = true) :
    d.length = 8 ∨ d.length = 10 ∨ d.length = 12 ∨ d.length = 14 := by
  unfold datePattern at h
  split at h
  · rename_i c1 c2 y3 y4 m1 m2 d1 d2 rest heq
    simp only [Bool.and_eq_true, Bool.or_eq_true, decide_eq_true_eq] at h
    obtain ⟨-, hlen⟩ := h
    have hl : d.length = rest.length + 8 := by
      show d.data.length = rest.length + 8
      rw [heq]
      simp
    omega
  · exact absurd h (by simp)

theorem repeatZero_eq_padZeros (d : String) :
    d ++ repeatZero (14 - (d.length : Int)) = padZeros d 14 := by
  unfold repeatZero padZeros
  have : (14 - (d.length : Int)).toNat = 14 - d.length := by omega
  rw [this]

theorem padZeros_length (d : String) (h : d.length ≤ 14) : (padZeros d 14).length = 14 := by
  unfold padZeros
  rw [String.length_append]
  show d.length + (List.replicate (14 - d.length) '0').length = 14
  rw [List.length_replicate]
  omega

/-- C10 as stated is false: the run "99999999999999999999" does not fit a machine
`int`, so it is not a release number of "99999999999999999999.20230115" but a
qualifier. -/
theorem C10_date_recognition_counterexample :
    (∀ r ∈ ["99999999999999999999"], isDigitRun r = true ∧ datePattern r = false) ∧
    datePattern "20230115" = true ∧
    joinWith "." ["99999999999999999999"] ++ "." ++ "20230115"
      = "99999999999999999999.20230115" ∧
    (Parse "99999999999999999999.20230115").release = [] ∧
    (Parse "99999999999999999999.20230115").prelist = [⟨"99999999999999999999", 0⟩] ∧
    (Parse "99999999999999999999.20230115").release
      ≠ dropTrailingZeros
          (["99999999999999999999"].map (fun r => (digitsValue r.data : Int))) := by
  decide!

/-- C10, amended: for every string `s` made only of "."-separated digit runs, none
of them date-shaped, and every digit run `d` matching the date grammar,
`Parse (s ++ "." ++ d)` has date `d` right-padded with "0" to 14 characters, and
its release and qualifier lists are those of `Parse s`: `d` is not appended to
release and produces no qualifier.  When every run of `s` fits a machine `int`,
the release list is the trailing-zero-trimmed list of the numbers of `s` and
there is no qualifier. -/
theorem C10_date_recognition_amended (runs : List String) (hne : runs ≠ [])
    (hruns : ∀ r ∈ runs, isDigitRun r = true ∧ datePattern r = false)
    (d : String) (hd : datePattern d = true) :
    (Parse (joinWith "." runs ++ "." ++ d)).date = padZeros d 14 ∧
    (Parse (joinWith "." runs ++ "." ++ d)).date.length = 14 ∧
    (Parse (joinWith "." runs ++ "." ++ d)).release = (Parse (joinWith "." runs)).release ∧
    (Parse (joinWith "." runs ++ "." ++ d)).prelist = (Parse (joinWith "." runs)).prelist ∧
    ((∀ r ∈ runs, fitsInt r = true) →
      (Parse (joinWith "." runs ++ "." ++ d)).release
        = dropTrailingZeros (runs.map (fun r => (digitsValue r.data : Int))) ∧
      (Parse (joinWith "." runs ++ "." ++ d)).prelist = []) := by
  obtain ⟨R, P, ⟨a1, a2, a3⟩, -, -, hdate⟩ := Parse_runs runs hne hruns
  obtain ⟨b1, b2, b3⟩ := hdate d hd
  rw [repeatZero_eq_padZeros] at b2
  have hlen : d.length ≤ 14 := by
    rcases datePattern_length d hd with h | h | h | h <;> omega
  refine ⟨b2, by rw [b2]; exact padZeros_length d hlen, b1.trans a1.symm, b3.trans a3.symm, ?_⟩
  intro hfit
  have hall : ∀ r ∈ runs, isDigitRun r = true ∧ datePattern r = false ∧ fitsInt r = true :=
    fun r hr => ⟨(hruns r hr).1, (hruns r hr).2, hfit r hr⟩
  obtain ⟨c1, -, c3⟩ := Parse_fields _ runs
    (tokens_joinWith "." (by decide) runs hne (fun r hr => (hruns r hr).1))
  rw [parseTokens_fitting_only runs hall] at c1 c3
  exact ⟨(b1.trans a1.symm).trans c1, (b3.trans a3.symm).trans c3⟩

/-- Witness of C10 (amended): "1.0.20230115" has release `[1]`, the date
"20230115000000" and no qualifier. -/
theorem C10_date_recognition_amended_witness :
    (Parse "1.0.20230115").date = "20230115000000" ∧
    (Parse "1.0.20230115").release = [1] ∧
    (Parse "1.0.20230115").prelist = [] :=
  have h := C10_date_recognition_amended ["1", "0"] (by decide) (by decide) "20230115"
    (by decide)
  ⟨h.1.trans (by decide), (h.2.2.2.2 (by decide)).1.trans (by decide),
    (h.2.2.2.2 (by decide)).2⟩

/-! ## The invariant of the release list -/

theorem alnumState_flushBuf (st : SplitState) (h : alnumState st) :
    alnumState (flushBuf st) := by
  unfold flushBuf
  split_ifs
  · refine ⟨?_, by simp⟩
    intro t ht
    simp only [List.mem_append, List.mem_singleton] at ht
    rcases ht with ht | rfl
    · exact h.1 t ht
    · exact h.2
  · exact h

theorem alnumState_splitStep (st : SplitState) (r : Char) (h : alnumState st) :
    alnumState (splitStep st r) := by
  have hf := alnumState_flushBuf st h
  unfold splitStep
  split_ifs with h1 h2 h3 h4
  all_goals first
    | (refine ⟨hf.1, ?_⟩
       intro c hc
       simp only [List.mem_append, List.mem_singleton] at hc
       rcases hc with hc | rfl
       · exact hf.2 c hc
       · first
           | exact Or.inl ((isDigitRune_iff _).mpr h1)
           | exact Or.inr ((isLowerRune_iff _).mpr h3))
    | (refine ⟨h.1, ?_⟩
       intro c hc
       simp only [List.mem_append, List.mem_singleton] at hc
       rcases hc with hc | rfl
       · exact h.2 c hc
       · first
           | exact Or.inl ((isDigitRune_iff _).mpr h1)
           | exact Or.inr ((isLowerRune_iff _).mpr h3))
    | exact ⟨hf.1, hf.2⟩

theorem alnumState_foldl (cs : List Char) :
    ∀ st, alnumState st → alnumState (cs.foldl splitStep st) := by
  induction cs with
  | nil => intro st h; exact h
  | cons c cs ih => intro st h; exact ih _ (alnumState_splitStep st c h)

/-- Every token consists of digits and lowercase letters only. -/
theorem tokens_alnum (s : String) :
    ∀ t ∈ splitVersionParts s, ∀ c ∈ t.data, isDigitRune c = true ∨ isLowerRune c = true :=
  (alnumState_flushBuf _ (alnumState_foldl s.data ⟨[], [], 0⟩ ⟨by simp, by simp⟩)).1

theorem Atoi_nonneg (t : String)
    (h : ∀ c ∈ t.data, isDigitRune c = true ∨ isLowerRune c = true) : 0 ≤ (Atoi t).1 := by
  have hminus : ¬ t.data.head? = some '-' := by
    intro hh
    have hmem : '-' ∈ t.data := List.mem_of_mem_head? hh
    rcases h _ hmem with h1 | h1 <;> exact absurd h1 (by decide)
  unfold Atoi
  simp only [hminus, false_or, decide_False, Bool.false_eq_true, if_false]
  split_ifs
  all_goals first
    | exact le_refl _
    | exact Int.natCast_nonneg _

theorem parseTokens_release_nonneg :
    ∀ (n : Nat) (toks : List String), toks.length ≤ n →
      (∀ t ∈ toks, 0 ≤ (Atoi t).1) →
      ∀ (f : Bool) (v : Version), (∀ x ∈ v.release, 0 ≤ x) →
        ∀ x ∈ (parseTokens toks f v).release, 0 ≤ x := by
  intro n
  induction n with
  | zero =>
    intro toks hlen _ f v hv
    have : toks = [] := List.length_eq_zero.mp (by omega)
    subst this
    rw [parseTokens_nil]
    exact hv
  | succ n ih =>
    intro toks hlen htoks f v hv
    cases toks with
    | nil => rw [parseTokens_nil]; exact hv
    | cons part rest =>
      have hrest : rest.length ≤ n := by simp only [List.length_cons] at hlen; omega
      have htail : rest.tail.length ≤ n := by rw [List.length_tail]; omega
      have hr : ∀ t ∈ rest, 0 ≤ (Atoi t).1 := fun t ht => htoks t (List.mem_cons_of_mem _ ht)
      have ht : ∀ t ∈ rest.tail, 0 ≤ (Atoi t).1 :=
        fun t ht => hr t (List.mem_of_mem_tail ht)
      rw [parseTokens]
      split_ifs
      · exact ih rest hrest hr _ _ hv
      · exact ih rest hrest hr _ _ hv
      · refine ih rest hrest hr _ _ ?_
        intro x hx
        simp only [List.mem_append, List.mem_singleton] at hx
        rcases hx with hx | rfl
        · exact hv x hx
        · exact htoks part (List.mem_cons_self _ _)
      · exact ih rest.tail htail ht _ _ hv
      · exact ih rest hrest hr _ _ hv

/-- C7: for every input string `s`, the release list of `Parse s` is either empty
or has a non-zero last element, and every element of it is non-negative. -/
theorem C7_release_invariant (s : String) :
    (∀ h : (Parse s).release ≠ [], (Parse s).release.getLast h ≠ 0) ∧
    (∀ x ∈ (Parse s).release, 0 ≤ x) := by
  have hrel : (Parse s).release = dropTrailingZeros
      (parseTokens (splitVersionParts (ToLower s)) true ⟨s, [], "", []⟩).release := by
    rw [Parse_eq]
  constructor
  · intro h
    have key : ∀ (l : List Int) (hl : l ≠ []), l = dropTrailingZeros
        (parseTokens (splitVersionParts (ToLower s)) true ⟨s, [], "", []⟩).release →
        l.getLast hl ≠ 0 := by
      intro l hl e
      subst e
      exact dropTrailingZeros_last _ hl
    exact key _ h hrel
  · intro x hx
    rw [hrel] at hx
    have hx' := dropTrailingZeros_mem _ x hx
    exact parseTokens_release_nonneg _ _ le_rfl
      (fun t ht => Atoi_nonneg t (tokens_alnum _ t ht)) true _ (by simp) x hx'

/-! ## Claims about `Compare`, `comparePre` and the relational helpers -/

/-- C19: for every `Version` value `v`, whatever its release list, date and
qualifier list (listed or unlisted names), `v.Compare(v)` is 0; in particular
`Compare (Parse s) (Parse s)` is 0 for every string `s`, the empty string
included. -/
theorem C19_compare_reflexive :
    (∀ v : Version, Compare v v = 0) ∧ (∀ s : String, Compare (Parse s) (Parse s) = 0) ∧
    Compare (Parse "") (Parse "") = 0 :=
  ⟨fun v => Compare_same_fields v v rfl rfl rfl,
    fun s => Compare_same_fields _ _ rfl rfl rfl,
    Compare_same_fields _ _ rfl rfl rfl⟩

/-- C12: for all `Version` values `a` and `b`, if `a.Version` or `b.Version` is
the empty string then `Lt`, `Lte`, `Gt`, `Gte` and `Eq` all return false (so
`Eq (Parse "") (Parse "")` is false); otherwise `Lt` holds iff `Compare` is -1,
`Gt` iff it is 1, `Eq` iff it is 0, `Lte` iff it is at most 0 and `Gte` iff it is
at least 0, and exactly one of `Lt`, `Eq`, `Gt` holds. -/
theorem C12_relational_helpers (a b : Version) :
    ((a.Version = "" ∨ b.Version = "") →
      Lt a b = false ∧ Lte a b = false ∧ Gt a b = false ∧ Gte a b = false ∧
        Eq a b = false) ∧
    Eq (Parse "") (Parse "") = false ∧
    ((a.Version ≠ "" ∧ b.Version ≠ "") →
      (Lt a b = true ↔ Compare a b = -1) ∧
      (Gt a b = true ↔ Compare a b = 1) ∧
      (Eq a b = true ↔ Compare a b = 0) ∧
      (Lte a b = true ↔ Compare a b ≤ 0) ∧
      (Gte a b = true ↔ Compare a b ≥ 0) ∧
      ((Lt a b = true ∧ Eq a b = false ∧ Gt a b = false) ∨
       (Lt a b = false ∧ Eq a b = true ∧ Gt a b = false) ∨
       (Lt a b = false ∧ Eq a b = false ∧ Gt a b = true))) := by
  refine ⟨?_, ?_, ?_⟩
  · intro h
    simp [Lt, Lte, Gt, Gte, Eq, h]
  · have h : (Parse "").Version = "" := rfl
    simp [Eq, h]
  · rintro ⟨ha, hb⟩
    have hne : ¬ (a.Version = "" ∨ b.Version = "") := by
      rintro (h | h)
      · exact ha h
      · exact hb h
    simp only [Lt, Lte, Gt, Gte, Eq, hne, if_false, decide_eq_true_eq, decide_eq_false_iff_not]
    rcases Compare_range a b with h | h | h <;> rw [h] <;> decide

/-- Witness of C12: the sentinel on one side, and "1.0" against "1.0-alpha". -/
theorem C12_relational_helpers_witness :
    Lt (Parse "") (Parse "1.0") = false ∧
    (Gt (Parse "1.0") (Parse "1.0-alpha") = true ↔
      Compare (Parse "1.0") (Parse "1.0-alpha") = 1) :=
  ⟨((C12_relational_helpers (Parse "") (Parse "1.0")).1 (Or.inl rfl)).1,
    ((C12_relational_helpers (Parse "1.0") (Parse "1.0-alpha")).2.2
      ⟨by decide, by decide⟩).2.1⟩

/-- C16: for all `Version` values `a` and `b` with equal release lists, if both
dates are non-empty and different then `a.Compare(b)` is the sign of the string
comparison of the dates, whatever the qualifier lists are; if either date is
empty, or the dates are equal, then `a.Compare(b)` is the result obtained after
clearing both dates, that is, the result of the qualifier tier alone. -/
theorem C16_date_tier (a b : Version) (hr : a.release = b.release) :
    ((a.date ≠ "" ∧ b.date ≠ "" ∧ a.date ≠ b.date) →
      Compare a b = compareStrings a.date b.date) ∧
    ((a.date = "" ∨ b.date = "" ∨ a.date = b.date) →
      Compare a b = Compare { a with date := "" } { b with date := "" } ∧
      Compare a b = (preScan a.prelist b.prelist).getD 0) := by
  have hclear : Compare { a with date := "" } { b with date := "" }
      = (preScan a.prelist b.prelist).getD 0 :=
    Compare_same_release_no_date _ _ hr rfl
  rw [hclear, Compare_eq_tiers, hr, lexCompare_self]
  simp only [ne_eq, not_true_eq_false, if_false]
  constructor
  · rintro ⟨h1, h2, h3⟩
    unfold compareStrings
    rw [if_pos ⟨h1, h2⟩]
    by_cases hgt : a.date > b.date
    · simp [hgt]
    · have hlt : a.date < b.date := by
        rcases lt_trichotomy a.date b.date with h | h | h
        · exact h
        · exact absurd h h3
        · exact absurd h hgt
      simp [hgt, hlt]
  · rintro (h | h | h)
    · simp [h]
    · simp [h]
    · rw [h]
      have hirr : ¬ b.date > b.date := lt_irrefl _
      have hirr' : ¬ b.date < b.date := lt_irrefl _
      simp [hirr, hirr']

/-- Witness of C16: equal release lists, two different dates, and qualifiers
that would decide the other way. -/
theorem C16_date_tier_witness :
    Compare ⟨"a", [1], "20230115000000", [⟨"alpha", 0⟩]⟩
      ⟨"b", [1], "20220115000000", [⟨"beta", 0⟩]⟩ = 1 :=
  ((C16_date_tier ⟨"a", [1], "20230115000000", [⟨"alpha", 0⟩]⟩
      ⟨"b", [1], "20220115000000", [⟨"beta", 0⟩]⟩ rfl).1
    ⟨by decide, by decide, by decide⟩).trans (by decide!)

theorem weights_eq_empty_of_not_mem (k : String) (h : k ∉ weightsTable.map Prod.fst) :
    weights k = "" := by
  unfold weights
  have hnone : weightsTable.lookup k = none := by
    rw [List.lookup_eq_none_iff]
    intro p hp
    simp only [bne_iff_ne, ne_eq]
    intro heq
    exact h (List.mem_map.mpr ⟨p, hp, heq.symm⟩)
  rw [hnone]
  rfl

theorem weights_ne_empty_of_mem (k : String) (h : k ∈ weightsTable.map Prod.fst) :
    weights k ≠ "" := by
  obtain ⟨p, hp, rfl⟩ := mem_weightsTable k h
  exact (weightsTable_names p hp).2.2

theorem rankString_eq (p : Pre) :
    rankString p = if weights p.Letter ≠ "" then weights p.Letter else p.Letter := by
  unfold rankString
  by_cases h : p.Letter ∈ weightsTable.map Prod.fst
  · rw [if_pos h, if_pos (weights_ne_empty_of_mem _ h)]
  · rw [if_neg h, if_neg (not_not.mpr (weights_eq_empty_of_not_mem _ h))]

/-- Where the code agrees with the reference comparison: whenever the second
qualifier name is a key of the weight table, or the two names are equal. -/
theorem comparePre_eq_spec (p1 p2 : Pre)
    (h : p2.Letter ∈ weightsTable.map Prod.fst ∨ p1.Letter = p2.Letter) :
    comparePre p1 p2 = comparePreSpec p1 p2 := by
  unfold comparePre comparePreSpec
  rw [rankString_eq p1, rankString_eq p2]
  rcases h with h | h
  · simp only [weights_ne_empty_of_mem _ h, ne_eq, not_false_eq_true, if_true]
  · simp only [h]

/-- C13, evaluated on the code: for the qualifiers `("foo", 0)` and `("bar", 0)`,
whose names are no keys of the weight table, the reference comparison of the
rank strings "foo" and "bar" gives 1, while `comparePre` takes both rank strings
from the first qualifier and returns 0; `Compare` of "1.0-foo" and "1.0-bar" is
therefore 0. -/
theorem C13_comparePre_differs_from_reference :
    comparePreSpec ⟨"foo", 0⟩ ⟨"bar", 0⟩ = 1 ∧
    comparePre ⟨"foo", 0⟩ ⟨"bar", 0⟩ = 0 ∧
    (Parse "1.0-foo").prelist = [⟨"foo", 0⟩] ∧
    (Parse "1.0-bar").prelist = [⟨"bar", 0⟩] ∧
    Compare (Parse "1.0-foo") (Parse "1.0-bar") = 0 := by
  decide!

/-- C18: for all qualifiers `p1` and `p2` whose names are both absent from the
weight table, `comparePre p1 p2` is the sign of `p1.Number - p2.Number`, whatever
the two names are; so there are versions with different unlisted qualifier names
that compare as equal, such as "1.0-foo" and "1.0-bar". -/
theorem C18_unlisted_names_not_distinguished (p1 p2 : Pre)
    (h1 : p1.Letter ∉ weightsTable.map Prod.fst)
    (h2 : p2.Letter ∉ weightsTable.map Prod.fst) :
    comparePre p1 p2 = Int.sign (p1.Number - p2.Number) ∧
    ((Parse "1.0-foo").prelist ≠ (Parse "1.0-bar").prelist ∧
      Compare (Parse "1.0-foo") (Parse "1.0-bar") = 0) := by
  refine ⟨?_, by decide!⟩
  unfold comparePre
  simp only [weights_eq_empty_of_not_mem _ h1, weights_eq_empty_of_not_mem _ h2, ne_eq,
    not_true_eq_false, if_false]
  have hirr : ¬ p1.Letter > p1.Letter := lt_irrefl _
  have hirr' : ¬ p1.Letter < p1.Letter := lt_irrefl _
  rw [if_neg hirr, if_neg hirr']
  by_cases hgt : p1.Number > p2.Number
  · rw [if_pos hgt, Int.sign_eq_one_of_pos (by omega)]
  · rw [if_neg hgt]
    by_cases hlt : p1.Number < p2.Number
    · rw [if_pos hlt, Int.sign_eq_neg_one_of_neg (by omega)]
    · rw [if_neg hlt]
      have : p1.Number - p2.Number = 0 := by omega
      rw [this]
      rfl

/-- Witness of C18: `("foo", 1)` against `("bar", 2)`. -/
theorem C18_unlisted_names_not_distinguished_witness :
    comparePre ⟨"foo", 1⟩ ⟨"bar", 2⟩ = -1 :=
  (C18_unlisted_names_not_distinguished ⟨"foo", 1⟩ ⟨"bar", 2⟩ (by decide) (by decide)).1.trans
    (by decide)

/-! ## `parseVersion` on a record that is not fresh -/

/-- On a record whose release and qualifier lists are empty and whose date is
empty, `parseVersion` returns what `Parse` returns, whatever text the record
held. -/
theorem parseVersion_fresh (s x : String) : parseVersion s ⟨x, [], "", []⟩ = Parse s :=
  rfl

/-- C20, evaluated on the code: `parseVersion "2.0"` applied to the record that
holds the parse of "1.0-alpha" keeps the old release number and the old
qualifier, and applied to the parse of "1.0.20230115" keeps the old date;
`Parse "2.0"` has release `[2]`, no date and no qualifier. -/
theorem C20_decoding_keeps_prior_contents :
    Parse "2.0" = ⟨"2.0", [2], "", []⟩ ∧
    parseVersion "2.0" (Parse "1.0-alpha") = ⟨"2.0", [1, 2], "", [⟨"alpha", 0⟩]⟩ ∧
    parseVersion "2.0" (Parse "1.0.20230115") = ⟨"2.0", [1, 2], "20230115000000", []⟩ := by
  decide!

/-! ## The tokenizer splits the alphanumeric content -/

theorem isDigitRun_mk (buf : List Char) (hne : buf ≠ [])
    (h : ∀ c ∈ buf, isDigitRune c = true) : isDigitRun (String.mk buf) = true := by
  cases buf with
  | nil => exact absurd rfl hne
  | cons d ds =>
    simp only [isDigitRun, List.isEmpty_cons, Bool.not_false, Bool.true_and, List.all_eq_true]
    exact h

theorem isLetterRun_mk (buf : List Char) (hne : buf ≠ [])
    (h : ∀ c ∈ buf, isLowerRune c = true) : isLetterRun (String.mk buf) = true := by
  cases buf with
  | nil => exact absurd rfl hne
  | cons d ds =>
    simp only [isLetterRun, List.isEmpty_cons, Bool.not_false, Bool.true_and, List.all_eq_true]
    exact h

/-- The state after `flushBuf` in a state that satisfies the invariant. -/
theorem splitInv_flushBuf (st : SplitState) (cs : List Char) (h : splitInv st cs) :
    (∀ t ∈ (flushBuf st).list, isDigitRun t = true ∨ isLetterRun t = true) ∧
    (flushBuf st).buf = [] ∧
    ((flushBuf st).list.map String.data).flatten
      = cs.filter (fun c => isDigitRune c || isLowerRune c) := by
  obtain ⟨h1, h2, h3⟩ := h
  refine ⟨?_, flushBuf_buf st, ?_⟩
  · unfold flushBuf
    split_ifs with hlen
    · intro t ht
      simp only [List.mem_append, List.mem_singleton] at ht
      rcases ht with ht | rfl
      · exact h1 t ht
      · rcases h2 with ⟨-, hne, hall⟩ | ⟨-, hne, hall⟩ | ⟨-, hnil⟩
        · exact Or.inl (isDigitRun_mk _ hne hall)
        · exact Or.inr (isLetterRun_mk _ hne hall)
        · rw [hnil] at hlen
          simp at hlen
    · exact h1
  · unfold flushBuf
    split_ifs with hlen
    · simp only [List.map_append, List.map_cons, List.map_nil, List.flatten_append,
        List.flatten_cons, List.flatten_nil, List.append_nil]
      exact h3
    · have hnil : st.buf = [] := List.length_eq_zero.mp (by omega)
      rw [hnil, List.append_nil] at h3
      exact h3

theorem splitInv_splitStep (st : SplitState) (cs : List Char) (c : Char)
    (h : splitInv st cs) : splitInv (splitStep st c) (cs ++ [c]) := by
  obtain ⟨f1, f2, f3⟩ := splitInv_flushBuf st cs h
  obtain ⟨h1, h2, h3⟩ := h
  by_cases hd : isDigitRune c = true
  · rw [splitStep_digit st c hd]
    have hfilter : (cs ++ [c]).filter (fun c => isDigitRune c || isLowerRune c)
        = cs.filter (fun c => isDigitRune c || isLowerRune c) ++ [c] := by
      rw [List.filter_append]
      simp [hd]
    by_cases hN : st.lastRune ≠ 'N'.toNat
    · rw [if_pos hN]
      refine ⟨f1, Or.inl ⟨rfl, by simp, by simpa using hd⟩, ?_⟩
      rw [hfilter, ← f3]
    · rw [if_neg hN]
      rw [ne_eq, not_not] at hN
      have hbuf : st.buf ≠ [] ∧ ∀ x ∈ st.buf, isDigitRune x = true := by
        rcases h2 with ⟨-, hne, hall⟩ | ⟨hS, -, -⟩ | ⟨h0, -⟩
        · exact ⟨hne, hall⟩
        · rw [hN] at hS; exact absurd hS (by decide)
        · rw [hN] at h0; exact absurd h0 (by decide)
      refine ⟨h1, Or.inl ⟨rfl, by simp, ?_⟩, ?_⟩
      · intro x hx
        simp only [List.mem_append, List.mem_singleton] at hx
        rcases hx with hx | rfl
        · exact hbuf.2 x hx
        · exact hd
      · rw [hfilter, ← h3, List.append_assoc]
  · rw [Bool.not_eq_true] at hd
    by_cases hl : isLowerRune c = true
    · rw [splitStep_lower st c hl]
      have hfilter : (cs ++ [c]).filter (fun c => isDigitRune c || isLowerRune c)
          = cs.filter (fun c => isDigitRune c || isLowerRune c) ++ [c] := by
        rw [List.filter_append]
        simp [hl]
      by_cases hS : st.lastRune ≠ 'S'.toNat
      · rw [if_pos hS]
        refine ⟨f1, Or.inr (Or.inl ⟨rfl, by simp, by simpa using hl⟩), ?_⟩
        rw [hfilter, ← f3]
      · rw [if_neg hS]
        rw [ne_eq, not_not] at hS
        have hbuf : st.buf ≠ [] ∧ ∀ x ∈ st.buf, isLowerRune x = true := by
          rcases h2 with ⟨hN, -, -⟩ | ⟨-, hne, hall⟩ | ⟨h0, -⟩
          · rw [hS] at hN; exact absurd hN (by decide)
          · exact ⟨hne, hall⟩
          · rw [hS] at h0; exact absurd h0 (by decide)
        refine ⟨h1, Or.inr (Or.inl ⟨rfl, by simp, ?_⟩), ?_⟩
        · intro x hx
          simp only [List.mem_append, List.mem_singleton] at hx
          rcases hx with hx | rfl
          · exact hbuf.2 x hx
          · exact hl
        · rw [hfilter, ← h3, List.append_assoc]
    · rw [Bool.not_eq_true] at hl
      rw [splitStep_other st c hd hl]
      have hfilter : (cs ++ [c]).filter (fun c => isDigitRune c || isLowerRune c)
          = cs.filter (fun c => isDigitRune c || isLowerRune c) := by
        rw [List.filter_append]
        simp [hd, hl]
      refine ⟨f1, Or.inr (Or.inr ⟨rfl, rfl⟩), ?_⟩
      rw [hfilter, ← f3, List.append_nil]

theorem splitInv_foldl (rest : List Char) :
    ∀ (st : SplitState) (cs : List Char), splitInv st cs →
      splitInv (rest.foldl splitStep st) (cs ++ rest) := by
  induction rest with
  | nil => intro st cs h; simpa using h
  | cons c rest ih =>
    intro st cs h
    have h' := ih _ _ (splitInv_splitStep st cs c h)
    rw [List.append_assoc] at h'
    exact h'

theorem splitInv_init : splitInv ⟨[], [], 0⟩ [] :=
  ⟨by simp, Or.inr (Or.inr ⟨rfl, rfl⟩), by simp⟩

/-- C17: for every input string, every token returned by `splitVersionParts` is
non-empty and consists solely of characters 0-9 or solely of characters a-z, the
concatenation of the tokens is the input with every character outside 0-9 and
a-z removed, and the empty input yields the empty list. -/
theorem C17_tokenizer_lossless (s : String) :
    (∀ t ∈ splitVersionParts s, isDigitRun t = true ∨ isLetterRun t = true) ∧
    String.join (splitVersionParts s) = alnumOnly s ∧
    splitVersionParts "" = [] := by
  have h := splitInv_foldl s.data ⟨[], [], 0⟩ [] splitInv_init
  rw [List.nil_append] at h
  obtain ⟨f1, -, f3⟩ := splitInv_flushBuf _ _ h
  refine ⟨f1, ?_, rfl⟩
  rw [String.join_eq]
  unfold alnumOnly splitVersionParts
  rw [f3]

/-! ## Separator characters -/

theorem splitStep_marker (st : SplitState) (c : Char) :
    splitStep st (if c = '_' ∨ c = '-' then '.' else c) = splitStep st c := by
  by_cases h : c = '_' ∨ c = '-'
  · rw [if_pos h, splitStep_other st '.' (by decide) (by decide)]
    rcases h with rfl | rfl
    · rw [splitStep_other st '_' (by decide) (by decide)]
    · rw [splitStep_other st '-' (by decide) (by decide)]
  · rw [if_neg h]

theorem foldl_splitStep_markers (cs : List Char) :
    ∀ st, (cs.map (fun c => if c = '_' ∨ c = '-' then '.' else c)).foldl splitStep st
      = cs.foldl splitStep st := by
  induction cs with
  | nil => intro st; rfl
  | cons c cs ih =>
    intro st
    rw [List.map_cons, List.foldl_cons, List.foldl_cons, splitStep_marker, ih]

theorem token_not_marker (s t : String) (ht : t ∈ splitVersionParts s) :
    t ≠ "_" ∧ t ≠ "-" ∧ '_' ∉ t.data ∧ '-' ∉ t.data := by
  have hal := tokens_alnum s t ht
  have hchar : ∀ c : Char, isDigitRune c = false → isLowerRune c = false → c ∉ t.data := by
    intro c h1 h2 hc
    rcases hal c hc with h | h
    · rw [h1] at h; exact absurd h (by simp)
    · rw [h2] at h; exact absurd h (by simp)
  have h1 := hchar '_' (by decide) (by decide)
  have h2 := hchar '-' (by decide) (by decide)
  refine ⟨?_, ?_, h1, h2⟩
  · rintro rfl
    exact h1 (by decide)
  · rintro rfl
    exact h2 (by decide)

/-- C14 as stated is false: "1-2" is its own lowercase form and tokenizes to
`["1", "2"]`; no token "-" is emitted. -/
theorem C14_marker_tokens_counterexample :
    ToLower "1-2" = "1-2" ∧
    splitVersionParts "1-2" = ["1", "2"] ∧
    splitVersionParts "1-2" ≠ ["1", "-", "2"] ∧
    "-" ∉ splitVersionParts "1-2" := by
  decide

/-- C14, amended: for every input string (lowercased or not), `splitVersionParts`
emits no token for a "_" or "-" character: no token is "_" or "-" or contains
either character, and the tokens are those of the input with each "_" and "-"
replaced by "." ("1-2" tokenizes to `["1", "2"]`).  So the marker test of
`parseVersion` fails at every index of the token list, and such a character
does not end the release section ("1-2" parses to release `[1, 2]`). -/
theorem C14_marker_tokens_amended (s : String) :
    (∀ t ∈ splitVersionParts s, t ≠ "_" ∧ t ≠ "-" ∧ '_' ∉ t.data ∧ '-' ∉ t.data) ∧
    splitVersionParts (markersToDots s) = splitVersionParts s ∧
    splitVersionParts "1-2" = ["1", "2"] ∧
    (∀ i, ¬ ((splitVersionParts (ToLower s)).getD i "" = "_" ∨
      (splitVersionParts (ToLower s)).getD i "" = "-")) ∧
    (Parse "1-2").release = [1, 2] := by
  refine ⟨fun t ht => token_not_marker s t ht, ?_, by decide, ?_, by decide⟩
  · unfold splitVersionParts markersToDots
    rw [foldl_splitStep_markers]
  · intro i
    by_cases hi : i < (splitVersionParts (ToLower s)).length
    · have hmem : (splitVersionParts (ToLower s)).getD i "" ∈ splitVersionParts (ToLower s) := by
        rw [List.getD_eq_getElem _ _ hi]
        exact List.getElem_mem _
      obtain ⟨h1, h2, -, -⟩ := token_not_marker _ _ hmem
      rintro (h | h)
      · exact h1 h
      · exact h2 h
    · rw [List.getD_eq_default _ _ (by omega)]
      decide

/-! ## The date invariant -/

/-- When the lookahead consumes the next token, that token is not date-shaped
and parses as an integer, and the qualifier name does not. -/
theorem lookahead_consumes (part : String) (rest : List String)
    (h : (lookahead part rest).2 = true) :
    ∃ next rest', rest = next :: rest' ∧ datePattern next = false ∧ (Atoi next).2 = true ∧
      (lookahead part rest).1 = (Atoi next).1 ∧ (Atoi part).2 = false := by
  unfold lookahead at h ⊢
  by_cases h1 : ¬ (Atoi part).2 = true
  · rw [if_pos h1] at h ⊢
    cases rest with
    | nil => simp at h
    | cons next rest' =>
      simp only [] at h ⊢
      by_cases hd : ¬ datePattern next = true
      · rw [if_pos hd] at h ⊢
        exact ⟨next, rest', rfl, by simpa using hd, h, rfl, by simpa using h1⟩
      · rw [if_neg hd] at h
        simp at h
  · rw [if_neg h1] at h
    simp at h

theorem parseTokens_date_eq :
    ∀ (n : Nat) (toks : List String), toks.length ≤ n → ∀ (f : Bool) (v : Version),
      (parseTokens toks f v).date = lastDateOr v.date toks := by
  intro n
  induction n with
  | zero =>
    intro toks hlen f v
    have : toks = [] := List.length_eq_zero.mp (by omega)
    subst this
    rw [parseTokens_nil, lastDateOr]
  | succ n ih =>
    intro toks hlen f v
    cases toks with
    | nil => rw [parseTokens_nil, lastDateOr]
    | cons part rest =>
      have hrest : rest.length ≤ n := by simp only [List.length_cons] at hlen; omega
      have htail : rest.tail.length ≤ n := by rw [List.length_tail]; omega
      rw [parseTokens, lastDateOr]
      by_cases hm : part = "_" ∨ part = "-"
      · have hd : ¬ datePattern part = true := by
          rcases hm with rfl | rfl <;> decide
        rw [if_pos hm, if_neg hd]
        exact ih rest hrest _ _
      · rw [if_neg hm]
        by_cases hd : datePattern part = true
        · rw [if_pos hd, if_pos hd]
          exact ih rest hrest _ _
        · rw [if_neg hd, if_neg hd]
          by_cases hr : f = true ∧ (Atoi part).2 = true
          · rw [if_pos hr]
            exact ih rest hrest _ _
          · rw [if_neg hr]
            by_cases hc : (lookahead (aliasOf part) rest).2 = true
            · rw [if_pos hc]
              obtain ⟨next, rest', hrest', hnd, -, -, -⟩ := lookahead_consumes _ _ hc
              rw [ih rest.tail htail _ _, hrest', List.tail_cons, lastDateOr,
                if_neg (by simp [hnd])]
            · rw [if_neg hc]
              exact ih rest hrest _ _

theorem lastDateOr_of_none (d0 : String) :
    ∀ toks : List String, (∀ t ∈ toks, datePattern t = false) → lastDateOr d0 toks = d0 := by
  intro toks
  induction toks with
  | nil => intro _; rfl
  | cons t ts ih =>
    intro h
    rw [lastDateOr, if_neg (by simp [h t (List.mem_cons_self _ _)])]
    exact ih (fun x hx => h x (List.mem_cons_of_mem _ hx))

theorem lastDateOr_of_some :
    ∀ (toks : List String) (d0 : String), (∃ t ∈ toks, datePattern t = true) →
      ∃ t ∈ toks, datePattern t = true ∧ lastDateOr d0 toks = padZeros t 14 := by
  intro toks
  induction toks with
  | nil => rintro d0 ⟨t, ht, -⟩; simp at ht
  | cons x xs ih =>
    intro d0 h
    rw [lastDateOr]
    by_cases hx : datePattern x = true
    · rw [if_pos hx]
      by_cases hmore : ∃ t ∈ xs, datePattern t = true
      · obtain ⟨t, ht, hdt, heq⟩ := ih _ hmore
        exact ⟨t, List.mem_cons_of_mem _ ht, hdt, heq⟩
      · have hnone : ∀ t ∈ xs, datePattern t = false := by
          intro t ht
          cases hdt : datePattern t with
          | false => rfl
          | true => exact absurd ⟨t, ht, hdt⟩ hmore
        rw [lastDateOr_of_none _ xs hnone, repeatZero_eq_padZeros]
        exact ⟨x, List.mem_cons_self _ _, hx, rfl⟩
    · rw [if_neg hx]
      obtain ⟨t, ht, hdt⟩ := h
      have htx : t ∈ xs := by
        rcases List.mem_cons.mp ht with rfl | h'
        · exact absurd hdt hx
        · exact h'
      obtain ⟨t', ht', hdt', heq⟩ := ih d0 ⟨t, htx, hdt⟩
      exact ⟨t', List.mem_cons_of_mem _ ht', hdt', heq⟩

/-- A date-shaped token padded to 14 characters still matches the date grammar. -/
theorem datePattern_padZeros (d : String) (h : datePattern d = true) :
    datePattern (padZeros d 14) = true := by
  have hlen := datePattern_length d h
  unfold datePattern at h
  split at h
  · rename_i c1 c2 y3 y4 m1 m2 d1 d2 rest heq
    have hl : d.length = rest.length + 8 := by
      show d.data.length = rest.length + 8
      rw [heq]
      simp
    have hdata : (padZeros d 14).data
        = c1 :: c2 :: y3 :: y4 :: m1 :: m2 :: d1 :: d2 ::
            (rest ++ List.replicate (6 - rest.length) '0') := by
      unfold padZeros
      rw [String.data_append, heq, hl]
      have : 14 - (rest.length + 8) = 6 - rest.length := by omega
      rw [this]
      rfl
    simp only [Bool.and_eq_true, Bool.or_eq_true, decide_eq_true_eq, List.all_eq_true] at h
    obtain ⟨⟨h8, hall⟩, -⟩ := h
    unfold datePattern
    rw [hdata]
    simp only [Bool.and_eq_true, Bool.or_eq_true, decide_eq_true_eq, List.all_eq_true]
    refine ⟨⟨h8, ?_⟩, ?_⟩
    · intro x hx
      rcases List.mem_append.mp hx with hx | hx
      · exact hall x hx
      · rw [List.eq_of_mem_replicate hx]
        decide
    · rw [List.length_append, List.length_replicate]
      omega
  · exact absurd h (by simp)

theorem padZeros_ne_empty (d : String) (h : datePattern d = true) : padZeros d 14 ≠ "" := by
  intro he
  have hlen : (padZeros d 14).length = 14 :=
    padZeros_length d (by rcases datePattern_length d h with h | h | h | h <;> omega)
  rw [he] at hlen
  exact absurd hlen (by decide)

/-- C11: for every input string `s`, the date of `Parse s` is the empty string
exactly when no token of `s` is date-shaped; otherwise it is the last date-shaped
token right-padded to 14 characters, a string of exactly 14 decimal digits that
itself matches the date grammar.  The padding count `14 - len(token)` of a
date-shaped token is never negative. -/
theorem C11_date_invariant (s : String) :
    ((Parse s).date = "" ↔ ∀ t ∈ splitVersionParts (ToLower s), datePattern t = false) ∧
    ((Parse s).date ≠ "" →
      (∃ t ∈ splitVersionParts (ToLower s), datePattern t = true ∧
        (Parse s).date = padZeros t 14) ∧
      (Parse s).date.length = 14 ∧
      (Parse s).date.data.all isDigitRune = true ∧
      datePattern (Parse s).date = true) ∧
    (∀ t : String, datePattern t = true → 0 ≤ 14 - (t.length : Int)) := by
  have hdate : (Parse s).date = lastDateOr "" (splitVersionParts (ToLower s)) := by
    rw [(Parse_fields s _ rfl).2.1]
    exact parseTokens_date_eq _ _ le_rfl true _
  have hsome : (∃ t ∈ splitVersionParts (ToLower s), datePattern t = true) →
      ∃ t ∈ splitVersionParts (ToLower s), datePattern t = true ∧
        (Parse s).date = padZeros t 14 := by
    intro h
    obtain ⟨t, ht, hdt, heq⟩ := lastDateOr_of_some _ "" h
    exact ⟨t, ht, hdt, hdate.trans heq⟩
  have hiff : (Parse s).date = "" ↔
      ∀ t ∈ splitVersionParts (ToLower s), datePattern t = false := by
    constructor
    · intro he t ht
      cases hdt : datePattern t with
      | false => rfl
      | true =>
        obtain ⟨t', -, hdt', heq⟩ := hsome ⟨t, ht, hdt⟩
        rw [he] at heq
        exact absurd heq.symm (padZeros_ne_empty t' hdt')
    · intro hnone
      rw [hdate, lastDateOr_of_none _ _ hnone]
  refine ⟨hiff, ?_, ?_⟩
  · intro hne
    have hex : ∃ t ∈ splitVersionParts (ToLower s), datePattern t = true := by
      by_contra hcon
      apply hne
      rw [hiff]
      intro t ht
      cases hdt : datePattern t with
      | false => rfl
      | true => exact absurd ⟨t, ht, hdt⟩ hcon
    obtain ⟨t, ht, hdt, heq⟩ := hsome hex
    have hpat := datePattern_padZeros t hdt
    have hrun := datePattern_digitRun _ hpat
    simp only [isDigitRun, Bool.and_eq_true] at hrun
    refine ⟨⟨t, ht, hdt, heq⟩, ?_, ?_, ?_⟩
    · rw [heq]
      exact padZeros_length t (by rcases datePattern_length t hdt with h | h | h | h <;> omega)
    · rw [heq]
      exact hrun.2
    · rw [heq]
      exact hpat
  · intro t ht
    rcases datePattern_length t ht with h | h | h | h <;> omega

/-! ## The qualifier number lookahead -/

/-- C15 as stated is false: in "1.0-alpha.1.2.3" the token "2" becomes a
qualifier and is followed by the token "3", which is not date-shaped and parses
as an integer; yet the qualifier `"2"` has `Number` 0 and "3" yields a qualifier
of its own, because a qualifier name that itself parses as an integer does no
lookahead (the guard of line 252). -/
theorem C15_lookahead_counterexample :
    splitVersionParts (ToLower "1.0-alpha.1.2.3") = ["1", "0", "alpha", "1", "2", "3"] ∧
    datePattern "3" = false ∧ Atoi "3" = (3, true) ∧
    (Parse "1.0-alpha.1.2.3").prelist = [⟨"alpha", 1⟩, ⟨"2", 0⟩, ⟨"3", 0⟩] ∧
    (Parse "1.0-alpha.1.2.3").prelist ≠ [⟨"alpha", 1⟩, ⟨"2", 3⟩] := by
  decide!

/-- C15, amended: at every iteration of the loop of `parseVersion` whose token
becomes a qualifier (it is no marker, not date-shaped, and not taken as a release
number), with `name` the token after the alias lookup:
if `name` does not parse as an integer and the next token exists, is not
date-shaped and parses as an integer, then the qualifier's `Number` is that
integer and the loop resumes after the next token, which is consumed;
if `name` itself parses as an integer, or there is no next token, or the next
token is date-shaped or is no number at all, then the qualifier's `Number` is 0
and the loop resumes at the next token. -/
theorem C15_lookahead_amended (list : List String) (fuel i : Nat) (releaseFlag : Bool)
    (v : Version) (hi : i < list.length)
    (hm : ¬ (list.getD i "" = "_" ∨ list.getD i "" = "-"))
    (hd : datePattern (list.getD i "") = false)
    (hq : ¬ (releaseFlag = true ∧ (Atoi (list.getD i "")).2 = true)) :
    ((Atoi (aliasOf (list.getD i ""))).2 = false → i + 1 < list.length →
      datePattern (list.getD (i + 1) "") = false →
      (Atoi (list.getD (i + 1) "")).2 = true →
      parseLoop list (fuel + 1) i releaseFlag v
        = parseLoop list fuel (i + 2) false
            { v with prelist := v.prelist ++
                [⟨aliasOf (list.getD i ""), (Atoi (list.getD (i + 1) "")).1⟩] }) ∧
    (((Atoi (aliasOf (list.getD i ""))).2 = true ∨ ¬ (i + 1 < list.length) ∨
        datePattern (list.getD (i + 1) "") = true ∨
        Atoi (list.getD (i + 1) "") = (0, false)) →
      parseLoop list (fuel + 1) i releaseFlag v
        = parseLoop list fuel (i + 1) false
            { v with prelist := v.prelist ++ [⟨aliasOf (list.getD i ""), 0⟩] }) := by
  have hd' : ¬ datePattern (list.getD i "") = true := Bool.eq_false_iff.mp hd
  have hstep : parseLoop list (fuel + 1) i releaseFlag v
      = parseLoop list fuel
          ((if ¬ (Atoi (aliasOf (list.getD i ""))).2 = true then
              if i + 1 < list.length then
                if ¬ datePattern (list.getD (i + 1) "") = true then
                  if (Atoi (list.getD (i + 1) "")).2 = true then
                    ((Atoi (list.getD (i + 1) "")).1, i + 1)
                  else ((Atoi (list.getD (i + 1) "")).1, i)
                else (0, i)
              else (0, i)
            else ((0 : Int), i)).2 + 1) false
          { v with prelist := v.prelist ++ [⟨aliasOf (list.getD i ""),
            (if ¬ (Atoi (aliasOf (list.getD i ""))).2 = true then
              if i + 1 < list.length then
                if ¬ datePattern (list.getD (i + 1) "") = true then
                  if (Atoi (list.getD (i + 1) "")).2 = true then
                    ((Atoi (list.getD (i + 1) "")).1, i + 1)
                  else ((Atoi (list.getD (i + 1) "")).1, i)
                else (0, i)
              else (0, i)
            else ((0 : Int), i)).1⟩] } := by
    rw [parseLoop]
    simp only []
    rw [if_pos hi, if_neg hm, if_neg hd', if_neg hq]
    rfl
  rw [hstep]
  constructor
  · intro h1 h2 h3 h4
    rw [if_pos (Bool.eq_false_iff.mp h1), if_pos h2, if_pos (Bool.eq_false_iff.mp h3), if_pos h4]
  · rintro (h | h | h | h)
    · rw [if_neg (not_not.mpr h)]
    · by_cases h1 : ¬ (Atoi (aliasOf (list.getD i ""))).2 = true
      · rw [if_pos h1, if_neg h]
      · rw [if_neg h1]
    · by_cases h1 : ¬ (Atoi (aliasOf (list.getD i ""))).2 = true
      · rw [if_pos h1]
        by_cases h2 : i + 1 < list.length
        · rw [if_pos h2, if_neg (not_not.mpr h)]
        · rw [if_neg h2]
      · rw [if_neg h1]
    · by_cases h1 : ¬ (Atoi (aliasOf (list.getD i ""))).2 = true
      · rw [if_pos h1]
        by_cases h2 : i + 1 < list.length
        · rw [if_pos h2]
          by_cases h3 : ¬ datePattern (list.getD (i + 1) "") = true
          · rw [if_pos h3, h, if_neg Bool.false_ne_true]
          · rw [if_neg h3]
        · rw [if_neg h2]
      · rw [if_neg h1]

/-- Witness of C15 (amended): in the token list of "1.0-alpha.1" the qualifier
"alpha" at index 2 takes the number 1 and consumes it. -/
theorem C15_lookahead_amended_witness :
    parseLoop ["1", "0", "alpha", "1"] 2 2 true ⟨"", [1, 0], "", []⟩
      = ⟨"", [1, 0], "", [⟨"alpha", 1⟩]⟩ :=
  ((C15_lookahead_amended ["1", "0", "alpha", "1"] 1 2 true ⟨"", [1, 0], "", []⟩
      (by decide) (by decide) (by decide) (by decide)).1
    (by decide) (by decide) (by decide) (by decide)).trans (by decide)

/-- When the next token is a digit run too large for a machine `int`, `Atoi`
returns a range error together with the largest `int`; the loop stores that
value as the qualifier's `Number` (line 255 assigns `n` before `err` is tested)
and does not consume the token. -/
theorem lookahead_range_error :
    Atoi "99999999999999999999" = (2 ^ 63 - 1, false) ∧
    (Parse "a99999999999999999999").prelist
      = [⟨"alpha", 2 ^ 63 - 1⟩, ⟨"99999999999999999999", 0⟩] := by
  decide!

end version
